import Mathlib

/-!
# UndoArray: a fixed-size array whose slots remember their history

Shallow embedding of `undo_array.h`.  The class keeps two parallel arrays of
length `m_size`: `m_historySizes[i]` (an `unsigned int`) and `m_values[i]`
(a `T*`, either `NULL` or the address of a heap block obtained from
`new T[...]`).  The per-slot blocks live in an explicit heap so that
allocation, deallocation, aliasing and the requested length of every block
are visible in the model.  Sizes are `unsigned int`: the increment in `set`
and the decrements in `get` and `undo` are taken modulo `UINT_MOD`.  Every
`for` loop of the source is a recursion on the number of iterations left, so
every function below is total; a run that C++ leaves undefined ends in a
`Fault` at the first undefined access: a read or write outside a top-level
array, a read or write through `NULL` or a released block, a store at or
beyond the requested length of a block, a read of a cell that holds no
value.
-/

/-- Modulus of `unsigned int` arithmetic (32 bits). -/
def UINT_MOD : Nat := 4294967296

/-- Ways in which a member function can fail to run to completion. -/
inductive Fault where
  /-- An `assert(...)` of the source evaluated to false. -/
  | assertion
  /-- A load or store through the `NULL` pointer. -/
  | nullPointer
  /-- An access that C++ leaves undefined: an index outside one of the
  top-level arrays, a freed or unknown block, or a cell that holds no stored
  value. -/
  | wildAccess
  deriving DecidableEq, Repr

/-- One heap block produced by `new T[cap]`.  `cap` is the element count that
was requested.  `cells` are the values stored so far at offsets `0, 1, ...`
(a fresh block holds no value yet: its cells are indeterminate).  `live` is
cleared by `delete`. -/
structure Block (T : Type) where
  cap : Nat
  cells : List T
  live : Bool
  deriving DecidableEq, Repr

/-- The heap: block addresses are positions in this list; blocks are never
reused, `delete` only clears `live`. -/
abbrev Heap (T : Type) := List (Block T)

/-- A `T*`: `none` is `NULL`, `some a` is the address of block `a`. -/
abbrev Ptr := Option Nat

/-- An indexed write into an array whose first `l.length` positions hold a
value: it overwrites a written position, or fills the first unwritten one.
A write further out, which would leave a gap of indeterminate positions, is
reported as a wild access. -/
def storeAt {α : Type} (l : List α) (i : Nat) (x : α) : Except Fault (List α) :=
  if i < l.length then .ok (l.set i x)
  else if i = l.length then .ok (l ++ [x])
  else .error .wildAccess

namespace Heap

variable {T : Type}

/-- The expression `new T[n]`: a fresh live block of requested length `n`, nothing
stored in it yet. -/
def alloc (h : Heap T) (n : Nat) : Heap T × Ptr :=
  (h ++ [⟨n, [], true⟩], some h.length)

/-- The heap after the block `p` points to has been released. -/
def release (h : Heap T) : Ptr → Heap T
  | none => h
  | some a =>
    match h[a]? with
    | some b => h.set a { b with live := false }
    | none => h

/-- The statement `delete p`: a no-op on `NULL`, otherwise it releases the live
block at `p` (the source releases its arrays with the scalar `delete`; the
model takes that as releasing the block). -/
def free (h : Heap T) : Ptr → Except Fault (Heap T)
  | none => .ok h
  | some a =>
    match h[a]? with
    | some b => if b.live then .ok (h.release (some a)) else .error .wildAccess
    | none => .error .wildAccess

/-- The read `p[i]`: defined on a live block at an offset that holds a stored
value.  `store` writes only below the requested length of a block, so in the
heaps these functions build such an offset lies inside the block. -/
def load (h : Heap T) : Ptr → Nat → Except Fault T
  | none, _ => .error .nullPointer
  | some a, i =>
    match h[a]? with
    | some b =>
      if b.live then
        match b.cells[i]? with
        | some x => .ok x
        | none => .error .wildAccess
      else .error .wildAccess
    | none => .error .wildAccess

/-- The write `p[i] = x`.  It is defined only inside the block, at an offset
below the length that was requested from `new T[...]`; a store at that length
or beyond (one past the end of the block included) is an access that C++
leaves undefined and is reported as a wild access. -/
def store (h : Heap T) : Ptr → Nat → T → Except Fault (Heap T)
  | none, _, _ => .error .nullPointer
  | some a, i, x =>
    match h[a]? with
    | some b =>
      if b.live then
        if i < b.cap then
          match storeAt b.cells i x with
          | .ok cs => .ok (h.set a { b with cells := cs })
          | .error e => .error e
        else .error .wildAccess
      else .error .wildAccess
    | none => .error .wildAccess

/-- Whether offset `i` lies inside the block `p` points to, that is, below the
length that was requested from `new T[...]`. -/
def inBounds (h : Heap T) : Ptr → Nat → Bool
  | none, _ => false
  | some a, i =>
    match h[a]? with
    | some b => decide (i < b.cap)
    | none => false

/-- The values stored in the block `p` points to (none behind `NULL`). -/
def cellsOf (h : Heap T) : Ptr → List T
  | none => []
  | some a =>
    match h[a]? with
    | some b => b.cells
    | none => []

/-- The first `m` cells of `p` can be read: trivially when `m = 0`, otherwise
`p` is the address of a live block that holds at least `m` values. -/
def Readable (h : Heap T) (p : Ptr) (m : Nat) : Prop :=
  m = 0 ∨ ∃ s bs, p = some s ∧ h[s]? = some bs ∧ bs.live = true ∧ m ≤ bs.cells.length

/-- The pointer `p` can be handed to `delete`: it is `NULL` or the address of
a live block. -/
def Freeable (h : Heap T) (p : Ptr) : Prop :=
  p = none ∨ ∃ s bs, p = some s ∧ h[s]? = some bs ∧ bs.live = true

/-- The loop `for (i = start; i < start + count; ++i) dst[i] = src[i];`
with `count` iterations left and loop variable `i`. -/
def copyCells (src dst : Ptr) : Nat → Nat → Heap T → Except Fault (Heap T)
  | 0, _, h => .ok h
  | k + 1, i, h => do
    let x ← h.load src i
    let h1 ← h.store dst i x
    copyCells src dst k (i + 1) h1

/-- The inner loop of `isEqualTo` over `j`, with `count` iterations left:
`true` when some `p[j] != q[j]` was met (the function then returns false). -/
def cellsDiffer [BEq T] (p q : Ptr) : Nat → Nat → Heap T → Except Fault Bool
  | 0, _, _ => .ok false
  | k + 1, j, h => do
    let x ← h.load p j
    let y ← h.load q j
    if x != y then pure true else cellsDiffer p q k (j + 1) h

end Heap

/-- The data members of `UndoArray<T>`.  The two top-level arrays are kept by
value (the positions written so far); the per-slot history blocks are in the
heap. -/
structure UndoArray where
  m_size : Nat
  m_historySizes : List Nat
  m_values : List Ptr
  deriving DecidableEq, Repr

namespace UndoArray

variable {T : Type}

/-- The read `m_historySizes[index]`. -/
def sizeAt (c : UndoArray) (index : Nat) : Except Fault Nat :=
  match c.m_historySizes[index]? with
  | some n => .ok n
  | none => .error .wildAccess

/-- The read `m_values[index]`. -/
def ptrAt (c : UndoArray) (index : Nat) : Except Fault Ptr :=
  match c.m_values[index]? with
  | some p => .ok p
  | none => .error .wildAccess

/-- The write `m_historySizes[index] = n`. -/
def setSizeAt (c : UndoArray) (index n : Nat) : Except Fault UndoArray :=
  match storeAt c.m_historySizes index n with
  | .ok l => .ok { c with m_historySizes := l }
  | .error e => .error e

/-- The write `m_values[index] = p`. -/
def setPtrAt (c : UndoArray) (index : Nat) (p : Ptr) : Except Fault UndoArray :=
  match storeAt c.m_values index p with
  | .ok l => .ok { c with m_values := l }
  | .error e => .error e

/-- The constructor loop: `m_historySizes[i] = 0; m_values[i] = NULL;`
for each of the `count` remaining positions, front to back. -/
def initSlots : Nat → UndoArray → UndoArray
  | 0, c => c
  | k + 1, c =>
    initSlots k { c with m_historySizes := c.m_historySizes ++ [0],
                         m_values := c.m_values ++ [none] }

/-- The constructor `UndoArray(const unsigned int& inputSize)`. -/
def create (inputSize : Nat) : UndoArray :=
  initSlots inputSize ⟨inputSize, [], []⟩

/-- The member `bool initialized(unsigned int index)`: `m_values[index] != NULL`. -/
def initialized (c : UndoArray) (index : Nat) : Except Fault Bool := do
  let p ← c.ptrAt index
  pure p.isSome

/-- The offset `m_historySizes[index] - 1` in `unsigned int` arithmetic. -/
def lastOffset (c : UndoArray) (index : Nat) : Except Fault Nat := do
  let n ← c.sizeAt index
  pure ((n + UINT_MOD - 1) % UINT_MOD)

/-- The member `T get(const unsigned int& index) const`:
`*(*(m_values + index) + (*(m_historySizes + index) - 1))`. -/
def get (h : Heap T) (c : UndoArray) (index : Nat) : Except Fault T := do
  let p ← c.ptrAt index
  let off ← c.lastOffset index
  h.load p off

/-- The body of `set` up to and including `++m_historySizes[index]`:
the history is copied to `tempHistory`, the slot is released and reallocated
with `new T [ m_historySizes[index] ]`, the history is copied back,
`tempHistory` is released and the size is incremented. -/
def setRealloc (h : Heap T) (c : UndoArray) (index : Nat) :
    Except Fault (Heap T × UndoArray) := do
  let n ← c.sizeAt index
  let r1 := h.alloc n
  let tempHistory := r1.2
  let old ← c.ptrAt index
  let h2 ← Heap.copyCells old tempHistory n 0 r1.1
  let h3 ← h2.free old
  let r4 := h3.alloc n
  let c1 ← c.setPtrAt index r4.2
  let h5 ← Heap.copyCells tempHistory r4.2 n 0 r4.1
  let h6 ← h5.free tempHistory
  let c2 ← c1.setSizeAt index ((n + 1) % UINT_MOD)
  pure (h6, c2)

/-- The member `void set(const unsigned int& index, const T& newValue)`: the
reallocation above, then
`m_values[index][ m_historySizes[index] - 1 ] = newValue`. -/
def set (h : Heap T) (c : UndoArray) (index : Nat) (newValue : T) :
    Except Fault (Heap T × UndoArray) := do
  let r ← setRealloc h c index
  let p ← r.2.ptrAt index
  let off ← r.2.lastOffset index
  let h2 ← r.1.store p off newValue
  pure (h2, r.2)

/-- The member `void undo(const unsigned int& index)`: the `assert`, then the
same copy, release and reallocate steps as `set` with `new T [newSize]`, the
decrement of the size and, when it reaches zero, the reset of the slot to
`NULL`. -/
def undo (h : Heap T) (c : UndoArray) (index : Nat) :
    Except Fault (Heap T × UndoArray) := do
  let isInit ← c.initialized index
  if isInit then
    let oldSize ← c.sizeAt index
    let newSize := (oldSize + UINT_MOD - 1) % UINT_MOD
    let r1 := h.alloc oldSize
    let tempHistory := r1.2
    let old ← c.ptrAt index
    let h2 ← Heap.copyCells old tempHistory oldSize 0 r1.1
    let h3 ← h2.free old
    let r4 := h3.alloc newSize
    let c1 ← c.setPtrAt index r4.2
    let h5 ← Heap.copyCells tempHistory r4.2 newSize 0 r4.1
    let h6 ← h5.free tempHistory
    let m ← c1.sizeAt index
    let c2 ← c1.setSizeAt index ((m + UINT_MOD - 1) % UINT_MOD)
    let m2 ← c2.sizeAt index
    if m2 = 0 then
      let p ← c2.ptrAt index
      let h7 ← h6.free p
      let c3 ← c2.setPtrAt index none
      pure (h7, c3)
    else
      pure (h6, c2)
  else
    throw Fault.assertion

/-- The deep-copy loop shared by the copy constructor and `operator=`, with
`count` slots left and loop variable `i`; `c` is the object being filled:
`m_historySizes[i] = copy.m_historySizes[i];`
`m_values[i] = new T [ m_historySizes[i] ];`
`for (j = 0; j < m_historySizes[i]; ++j) m_values[i][j] = copy.m_values[i][j];` -/
def copySlots (copy : UndoArray) :
    Nat → Nat → Heap T → UndoArray → Except Fault (Heap T × UndoArray)
  | 0, _, h, c => .ok (h, c)
  | k + 1, i, h, c => do
    let n ← copy.sizeAt i
    let c1 ← c.setSizeAt i n
    let m ← c1.sizeAt i
    let r := h.alloc m
    let c2 ← c1.setPtrAt i r.2
    let bound ← c2.sizeAt i
    let dst ← c2.ptrAt i
    let src ← copy.ptrAt i
    let h1 ← Heap.copyCells src dst bound 0 r.1
    copySlots copy k (i + 1) h1 c2

/-- The copy constructor `UndoArray(const UndoArray<T>& copy)`: fresh top-level
arrays, then the deep-copy loop over `copy.m_size` slots. -/
def copyCtor (h : Heap T) (copy : UndoArray) : Except Fault (Heap T × UndoArray) :=
  copySlots copy copy.m_size 0 h ⟨copy.m_size, [], []⟩

/-- The first loop of `operator=`, with `count` slots left:
`if (m_values[i] != NULL) delete m_values[i];` -/
def freeSlots (c : UndoArray) : Nat → Nat → Heap T → Except Fault (Heap T)
  | 0, _, h => .ok h
  | k + 1, i, h => do
    let p ← c.ptrAt i
    let h1 ← if p.isSome then h.free p else pure h
    freeSlots c k (i + 1) h1

/-- The member `UndoArray<T>& operator=(const UndoArray<T>& rhs)` for an `rhs`
that is another object than `*this`: the slots of `*this` are released, the
top-level arrays are replaced by fresh ones of `rhs.m_size` positions, and
`rhs` is deep-copied. -/
def assign (h : Heap T) (this rhs : UndoArray) : Except Fault (Heap T × UndoArray) := do
  let h1 ← freeSlots this this.m_size 0 h
  copySlots rhs rhs.m_size 0 h1 ⟨rhs.m_size, [], []⟩

/-- The outer loop of `isEqualTo` over `i`, with `count` slots left. -/
def slotsEqual [BEq T] (c rhs : UndoArray) : Nat → Nat → Heap T → Except Fault Bool
  | 0, _, _ => .ok true
  | k + 1, i, h => do
    let n ← c.sizeAt i
    let m ← rhs.sizeAt i
    if n ≠ m then pure false
    else
      let count := n
      let p ← c.ptrAt i
      let q ← rhs.ptrAt i
      let differ ← Heap.cellsDiffer p q count 0 h
      if differ then pure false else slotsEqual c rhs k (i + 1) h

/-- The member `bool isEqualTo(const UndoArray& rhs)`. -/
def isEqualTo [BEq T] (h : Heap T) (c rhs : UndoArray) : Except Fault Bool :=
  if c.m_size ≠ rhs.m_size then .ok false
  else slotsEqual c rhs c.m_size 0 h

/-- The calls `set(index, v1); ...; set(index, vk)` in order. -/
def setAll (index : Nat) : List T → Heap T → UndoArray → Except Fault (Heap T × UndoArray)
  | [], h, c => .ok (h, c)
  | v :: vs, h, c => do
    let r ← set h c index v
    setAll index vs r.1 r.2

/-- The call `undo(index)` repeated `m` times. -/
def undoN (index : Nat) : Nat → Heap T → UndoArray → Except Fault (Heap T × UndoArray)
  | 0, h, c => .ok (h, c)
  | m + 1, h, c => do
    let r ← undo h c index
    undoN index m r.1 r.2

/-- The history length of a slot as the object records it. -/
def historyLength (c : UndoArray) (i : Nat) : Nat :=
  (c.m_historySizes[i]?).getD 0

/-- The pointer of slot `i` (`NULL` outside the array). -/
def slotPtr (c : UndoArray) (i : Nat) : Ptr :=
  (c.m_values[i]?).getD none

/-- The history of slot `i`, oldest value first: the cells
`m_values[i][0 .. m_historySizes[i] - 1]`. -/
def history (h : Heap T) (c : UndoArray) (i : Nat) : List T :=
  (h.cellsOf (c.slotPtr i)).take (c.historyLength i)

/-- Representation invariant of one slot: its size is an `unsigned int`, and
either the pointer is `NULL` and the size is zero, or the pointer is the
address of a live block that holds at least `m_historySizes[i]` values. -/
def SlotWF (h : Heap T) (c : UndoArray) (i : Nat) : Prop :=
  ∃ n, c.m_historySizes[i]? = some n ∧ n < UINT_MOD ∧
    ((c.m_values[i]? = some none ∧ n = 0) ∨
     (∃ a b, c.m_values[i]? = some (some a) ∧ h[a]? = some b ∧ b.live = true ∧
        n ≤ b.cells.length))

/-- Representation invariant of an object in a heap: both top-level arrays
have `m_size` positions, every slot is well formed, and no block is the
history of two slots. -/
def WF (h : Heap T) (c : UndoArray) : Prop :=
  c.m_historySizes.length = c.m_size ∧ c.m_values.length = c.m_size ∧
  (∀ i, i < c.m_size → SlotWF h c i) ∧
  (∀ i j a : Nat, c.m_values[i]? = some (some a) → c.m_values[j]? = some (some a) → i = j)

/-- Two objects are separate when no block is a slot of both. -/
def Separate (c d : UndoArray) : Prop :=
  ∀ i j a : Nat, c.m_values[i]? = some (some a) → d.m_values[j]? = some (some a) → False

/-- Every block that is a slot of `d` is the same in `h1` as in `h`. -/
def Unchanged (h h1 : Heap T) (d : UndoArray) : Prop :=
  ∀ i a : Nat, d.m_values[i]? = some (some a) → h1[a]? = h[a]?

end UndoArray

namespace UndoArray

variable {T : Type}

/-- Two objects of one heap are independent when both are well formed and no
block is a slot of both. -/
def Independent (h : Heap T) (A B : UndoArray) : Prop :=
  WF h A ∧ WF h B ∧ Separate A B

end UndoArray

/-- What `print` writes, as data: the value of the `m_size` line, the numbers
of the `m_historySizes` line, the marks of the `m_values` line (`false` for
`/`, an empty slot, and `true` for `.`), and the rows of the grid, where a
cell is a value or `none` for the blank filler. -/
structure Printed (T : Type) where
  size : Nat
  sizes : List Nat
  marks : List Bool
  rows : List (List (Option T))

namespace UndoArray

variable {T : Type}

/-- The first loop of `print`, with `count` slots left: it writes
`m_historySizes[i]` and keeps the largest value seen in `max_history`. -/
def printSizes (c : UndoArray) : Nat → Nat → List Nat → Nat → Except Fault (List Nat × Nat)
  | 0, _, out, max_history => .ok (out, max_history)
  | k + 1, i, out, max_history => do
    let n ← c.sizeAt i
    printSizes c k (i + 1) (out ++ [n]) (if n > max_history then n else max_history)

/-- The second loop of `print`, with `count` slots left: `/` when
`m_historySizes[i] == 0`, `.` otherwise. -/
def printMarks (c : UndoArray) : Nat → Nat → List Bool → Except Fault (List Bool)
  | 0, _, out => .ok out
  | k + 1, i, out => do
    let n ← c.sizeAt i
    printMarks c k (i + 1) (out ++ [if n = 0 then false else true])

/-- The inner loop of the grid for the row `i`, with `count` slots left:
`m_values[j][i]` when `m_historySizes[j] > i`, the blank filler otherwise. -/
def printRow (h : Heap T) (c : UndoArray) (i : Nat) :
    Nat → Nat → List (Option T) → Except Fault (List (Option T))
  | 0, _, out => .ok out
  | k + 1, j, out => do
    let n ← c.sizeAt j
    if n > i then
      let p ← c.ptrAt j
      let x ← h.load p i
      printRow h c i k (j + 1) (out ++ [some x])
    else
      printRow h c i k (j + 1) (out ++ [none])

/-- The outer loop of the grid, with `count` rows left. -/
def printRows (h : Heap T) (c : UndoArray) :
    Nat → Nat → List (List (Option T)) → Except Fault (List (List (Option T)))
  | 0, _, out => .ok out
  | k + 1, i, out => do
    let row ← printRow h c i c.m_size 0 []
    printRows h c k (i + 1) (out ++ [row])

/-- The member `void print()`, read as a function that returns what it
writes (`DEBUG_MODE` is defined, so the `m_size` line is written). -/
def print (h : Heap T) (c : UndoArray) : Except Fault (Printed T) := do
  let r ← printSizes c c.m_size 0 [] 0
  let marks ← printMarks c c.m_size 0 []
  let rows ← printRows h c r.2 0 []
  pure ⟨c.m_size, r.1, marks, rows⟩

/-- The cell of the grid at row `d` and slot `j`, as the specification words
it: the `d`-th oldest value of the slot when `d` is below its history
length, the blank filler otherwise. -/
def gridCell (h : Heap T) (c : UndoArray) (d j : Nat) : Option T :=
  if d < c.historyLength j then (history h c j)[d]? else none

end UndoArray

/-- How a call of a member function ends: it completes with a result in a
final state; or a failed `assert` stops it, in the state it had reached; or it
performs an access that C++ leaves undefined, and from there on the source
defines neither a result nor a state. -/
inductive Ending (T α : Type) where
  | completed (a : α) (s : Heap T × UndoArray)
  | asserted (s : Heap T × UndoArray)
  | undefined (e : Fault)

/-- A member function as a transformer of the state it works on, the heap and
the object.  This keeps what the `Except` functions above drop: the state in
which a failed `assert` stops a call. -/
def Run (T α : Type) : Type := Heap T × UndoArray → Ending T α

namespace Run

variable {T α β : Type}

/-- A step that completes with `a` and changes nothing. -/
def done (a : α) : Run T α := fun s => .completed a s

/-- The statement `assert(false)`: the call stops in the state it is in. -/
def assertFailed : Run T α := fun s => .asserted s

/-- Sequencing: `f` continues from the state `m` left, unless `m` did not
complete. -/
def andThen (m : Run T α) (f : α → Run T β) : Run T β := fun s =>
  match m s with
  | .completed a s1 => f a s1
  | .asserted s1 => .asserted s1
  | .undefined e => .undefined e

instance : Monad (Run T) where
  pure := done
  bind := andThen

/-- A read of the object; a read that faults is an undefined access. -/
def ofObject (f : UndoArray → Except Fault α) : Run T α := fun s =>
  match f s.2 with
  | .ok a => .completed a s
  | .error e => .undefined e

/-- A read of the heap; a read that faults is an undefined access. -/
def ofHeap (f : Heap T → Except Fault α) : Run T α := fun s =>
  match f s.1 with
  | .ok a => .completed a s
  | .error e => .undefined e

/-- A write to the object; a write that faults is an undefined access. -/
def onObject (f : UndoArray → Except Fault UndoArray) : Run T Unit := fun s =>
  match f s.2 with
  | .ok c => .completed () (s.1, c)
  | .error e => .undefined e

/-- A write to the heap; a write that faults is an undefined access. -/
def onHeap (f : Heap T → Except Fault (Heap T)) : Run T Unit := fun s =>
  match f s.1 with
  | .ok h => .completed () (h, s.2)
  | .error e => .undefined e

/-- The expression `new T[n]`. -/
def alloc (n : Nat) : Run T Ptr := fun s => .completed (s.1.alloc n).2 ((s.1.alloc n).1, s.2)

/-- The outcome of a run as the `Except` functions report it: the final state
of a run that completed, the fault of one that did not. -/
def outcome (r : Ending T α) : Except Fault (Heap T × UndoArray) :=
  match r with
  | .completed _ s => .ok s
  | .asserted _ => .error .assertion
  | .undefined e => .error e

end Run

namespace UndoArray

variable {T : Type}

/-- The loop `for (i = start; i < start + count; ++i) dst[i] = src[i];` as a
run, with `count` iterations left. -/
def copyCellsRun (src dst : Ptr) : Nat → Nat → Run T Unit
  | 0, _ => pure ()
  | k + 1, i => do
    let x ← Run.ofHeap (fun h => h.load src i)
    Run.onHeap (fun h => h.store dst i x)
    copyCellsRun src dst k (i + 1)

/-- The member `set` as a run, statement by statement as in `setRealloc` and
`set`. -/
def setRun (index : Nat) (newValue : T) : Run T Unit := do
  let n ← Run.ofObject (fun c => c.sizeAt index)
  let tempHistory ← Run.alloc n
  let old ← Run.ofObject (fun c => c.ptrAt index)
  copyCellsRun old tempHistory n 0
  Run.onHeap (fun h => h.free old)
  let p ← Run.alloc n
  Run.onObject (fun c => c.setPtrAt index p)
  copyCellsRun tempHistory p n 0
  Run.onHeap (fun h => h.free tempHistory)
  Run.onObject (fun c => c.setSizeAt index ((n + 1) % UINT_MOD))
  let q ← Run.ofObject (fun c => c.ptrAt index)
  let off ← Run.ofObject (fun c => c.lastOffset index)
  Run.onHeap (fun h => h.store q off newValue)

/-- The member `undo` as a run, statement by statement as in `undo`; the only
`assert` of the class is its first statement. -/
def undoRun (index : Nat) : Run T Unit := do
  let isInit ← Run.ofObject (fun c => c.initialized index)
  if isInit then
    let oldSize ← Run.ofObject (fun c => c.sizeAt index)
    let tempHistory ← Run.alloc oldSize
    let old ← Run.ofObject (fun c => c.ptrAt index)
    copyCellsRun old tempHistory oldSize 0
    Run.onHeap (fun h => h.free old)
    let p ← Run.alloc ((oldSize + UINT_MOD - 1) % UINT_MOD)
    Run.onObject (fun c => c.setPtrAt index p)
    copyCellsRun tempHistory p ((oldSize + UINT_MOD - 1) % UINT_MOD) 0
    Run.onHeap (fun h => h.free tempHistory)
    let m ← Run.ofObject (fun c => c.sizeAt index)
    Run.onObject (fun c => c.setSizeAt index ((m + UINT_MOD - 1) % UINT_MOD))
    let m2 ← Run.ofObject (fun c => c.sizeAt index)
    if m2 = 0 then
      let q ← Run.ofObject (fun c => c.ptrAt index)
      Run.onHeap (fun h => h.free q)
      Run.onObject (fun c => c.setPtrAt index none)
    else
      pure ()
  else
    Run.assertFailed

end UndoArray

namespace Heap

variable {T : Type}

/-- No block of the heap holds a value at or beyond its requested length.
The empty heap is bounded, and `new`, `delete` and the store `p[i] = x` keep a
heap bounded, so in every heap the functions above build a value that `load`
reads lies inside its block. -/
def Bounded (h : Heap T) : Prop :=
  ∀ (a : Nat) (b : Block T), h[a]? = some b → b.cells.length ≤ b.cap

end Heap

/-- An element type with a value that compares unequal to itself, as the NaN
of `double` and `float` does (`test_driver.cpp` instantiates
`UndoArray<double>` and `UndoArray<float>`): a not-a-number, or a number. -/
inductive FloatLike where
  | nan
  | num (n : Int)
  deriving DecidableEq, Repr

/-- The comparison `==` of `FloatLike`, the negation of its `!=`: it holds
between two numbers that are equal and never when a not-a-number is
involved. -/
def FloatLike.eqv : FloatLike → FloatLike → Bool
  | .num m, .num n => m == n
  | _, _ => false

instance : BEq FloatLike := ⟨FloatLike.eqv⟩

deriving instance DecidableEq for Except

/-! ## Elementary facts about the memory model -/

theorem storeAt_length {α : Type} (l : List α) (x : α) :
    storeAt l l.length x = .ok (l ++ [x]) := by
  simp [storeAt]

theorem storeAt_lt {α : Type} (l : List α) (i : Nat) (x : α) (hi : i < l.length) :
    storeAt l i x = .ok (l.set i x) := by
  simp [storeAt, hi]

namespace Heap

variable {T : Type}

theorem set_self (h : Heap T) (a : Nat) (b : Block T) (hb : h[a]? = some b) :
    h.set a b = h := by
  apply List.ext_getElem?
  intro k
  by_cases hk : a = k
  · subst hk
    have hlt : a < h.length := by
      rcases List.getElem?_eq_some_iff.mp hb with ⟨hlt, _⟩
      exact hlt
    simp [List.getElem?_set_self, hlt, hb]
  · simp [List.getElem?_set_ne hk]

theorem lt_of_getElem? (h : Heap T) (a : Nat) (b : Block T) (hb : h[a]? = some b) :
    a < h.length := by
  rcases List.getElem?_eq_some_iff.mp hb with ⟨hlt, _⟩
  exact hlt

theorem load_eq (h : Heap T) (a i : Nat) (b : Block T) (x : T)
    (hb : h[a]? = some b) (hl : b.live = true) (hx : b.cells[i]? = some x) :
    h.load (some a) i = .ok x := by
  simp [load, hb, hl, hx]

theorem store_append (h : Heap T) (a : Nat) (b : Block T) (x : T)
    (hb : h[a]? = some b) (hl : b.live = true) (hc : b.cells.length < b.cap) :
    h.store (some a) b.cells.length x = .ok (h.set a { b with cells := b.cells ++ [x] }) := by
  simp [store, hb, hl, hc, storeAt_length]

/-- A store at or beyond the requested length of a block is undefined. -/
theorem store_past_block (h : Heap T) (a i : Nat) (b : Block T) (x : T)
    (hb : h[a]? = some b) (hc : b.cap ≤ i) :
    h.store (some a) i x = .error .wildAccess := by
  have hn : ¬ i < b.cap := by omega
  simp only [store, hb, hn, if_false]
  split <;> rfl

theorem free_eq (h : Heap T) (a : Nat) (b : Block T)
    (hb : h[a]? = some b) (hl : b.live = true) :
    h.free (some a) = .ok (h.set a { b with live := false }) := by
  simp [free, release, hb, hl]

theorem copyCells_eq (s d : Nat) (bs : Block T) (hsd : s ≠ d) (hsl : bs.live = true) :
    ∀ (k i : Nat) (h : Heap T) (bd : Block T), h[s]? = some bs → h[d]? = some bd →
      bd.live = true → bd.cells.length = i → i + k ≤ bs.cells.length → i + k ≤ bd.cap →
      copyCells (some s) (some d) k i h =
        .ok (h.set d { bd with cells := bd.cells ++ (bs.cells.drop i).take k }) := by
  intro k
  induction k with
  | zero =>
    intro i h bd _ hd _ _ _ _
    simp [copyCells, set_self h d bd hd]
  | succ k ih =>
    intro i h bd hs hd hdl hlen hk hcap
    have hi : i < bs.cells.length := by omega
    have hx : bs.cells[i]? = some bs.cells[i] := List.getElem?_eq_getElem hi
    have hload := load_eq h s i bs _ hs hsl hx
    have hstore := store_append h d bd bs.cells[i] hd hdl (by omega)
    rw [hlen] at hstore
    have hdlt := lt_of_getElem? h d bd hd
    simp only [copyCells, hload, hstore, bind, Except.bind]
    rw [ih (i + 1) _ { bd with cells := bd.cells ++ [bs.cells[i]] }
      (by rw [List.getElem?_set_ne (Ne.symm hsd)]; exact hs)
      (by simp [List.getElem?_set_self, hdlt]) hdl (by simp [hlen]) (by omega)
      (by show i + 1 + k ≤ bd.cap; omega)]
    simp only [List.set_set]
    congr 3
    rw [List.drop_eq_getElem_cons hi, List.take_succ_cons]
    simp

theorem set_concat_length (h : Heap T) (b b1 : Block T) :
    (h ++ [b]).set h.length b1 = h ++ [b1] := by
  simp [List.set_append]

theorem set_append_lt (h l : Heap T) (a : Nat) (b : Block T) (ha : a < h.length) :
    (h ++ l).set a b = h.set a b ++ l := by
  simp [List.set_append, ha]

@[simp] theorem length_release (h : Heap T) (p : Ptr) : (h.release p).length = h.length := by
  cases p with
  | none => rfl
  | some a =>
    simp only [release]
    split <;> simp

theorem release_append (h l : Heap T) (p : Ptr) (hp : h.Freeable p) :
    (h ++ l).release p = h.release p ++ l := by
  rcases hp with rfl | ⟨s, bs, rfl, hs, _⟩
  · rfl
  · have hlt := lt_of_getElem? h s bs hs
    simp [release, hs, List.getElem?_append_left hlt, set_append_lt h l s _ hlt]

theorem free_append (h l : Heap T) (p : Ptr) (hp : h.Freeable p) :
    (h ++ l).free p = .ok (h.release p ++ l) := by
  rw [← release_append h l p hp]
  rcases hp with rfl | ⟨s, bs, rfl, hs, hl⟩
  · rfl
  · have hlt := lt_of_getElem? h s bs hs
    simp [free, hs, hl, List.getElem?_append_left hlt]

theorem copyCells_fresh (h : Heap T) (p : Ptr) (m cap : Nat) (hr : h.Readable p m)
    (hcap : m ≤ cap) :
    copyCells p (some h.length) m 0 (h ++ [⟨cap, [], true⟩]) =
      .ok (h ++ [⟨cap, (h.cellsOf p).take m, true⟩]) := by
  rcases hr with rfl | ⟨s, bs, rfl, hs, hl, hm⟩
  · simp [copyCells]
  · have hlt := lt_of_getElem? h s bs hs
    have key := copyCells_eq s h.length bs (by omega) hl m 0
      (h ++ [(⟨cap, [], true⟩ : Block T)]) (⟨cap, [], true⟩ : Block T)
      (by rw [List.getElem?_append_left hlt]; exact hs) (by simp) rfl rfl (by omega)
      (by simpa using hcap)
    rw [key]
    simp [set_concat_length, cellsOf, hs]

end Heap

namespace Heap

variable {T : Type}

theorem Readable.length_take {h : Heap T} {p : Ptr} {m : Nat} (hr : h.Readable p m) :
    ((h.cellsOf p).take m).length = m := by
  rcases hr with rfl | ⟨s, bs, rfl, hs, _, hm⟩
  · simp
  · simp [cellsOf, hs, hm]

theorem readable_last (h : Heap T) (b : Block T) (m : Nat) (hl : b.live = true)
    (hm : m ≤ b.cells.length) : (h ++ [b]).Readable (some h.length) m := by
  right
  exact ⟨h.length, b, rfl, by simp, hl, hm⟩

theorem cellsOf_last (h : Heap T) (b : Block T) :
    (h ++ [b]).cellsOf (some h.length) = b.cells := by
  simp [cellsOf]

end Heap

namespace UndoArray

variable {T : Type}

theorem sizeAt_eq (c : UndoArray) (i n : Nat) (hn : c.m_historySizes[i]? = some n) :
    c.sizeAt i = .ok n := by
  simp [sizeAt, hn]

theorem ptrAt_eq (c : UndoArray) (i : Nat) (p : Ptr) (hp : c.m_values[i]? = some p) :
    c.ptrAt i = .ok p := by
  simp [ptrAt, hp]

theorem setSizeAt_eq (c : UndoArray) (i n : Nat) (hi : i < c.m_historySizes.length) :
    c.setSizeAt i n = .ok { c with m_historySizes := c.m_historySizes.set i n } := by
  simp [setSizeAt, storeAt_lt _ _ _ hi]

theorem setPtrAt_eq (c : UndoArray) (i : Nat) (p : Ptr) (hi : i < c.m_values.length) :
    c.setPtrAt i p = .ok { c with m_values := c.m_values.set i p } := by
  simp [setPtrAt, storeAt_lt _ _ _ hi]

theorem lt_of_getElem?_eq {α : Type} (l : List α) (i : Nat) (x : α) (hx : l[i]? = some x) :
    i < l.length := by
  rcases List.getElem?_eq_some_iff.mp hx with ⟨hlt, _⟩
  exact hlt

theorem setRealloc_eq (h : Heap T) (c : UndoArray) (i n : Nat) (old : Ptr)
    (hn : c.m_historySizes[i]? = some n) (hp : c.m_values[i]? = some old)
    (hr : h.Readable old n) (hf : h.Freeable old) :
    setRealloc h c i =
      .ok (h.release old ++
            [⟨n, (h.cellsOf old).take n, false⟩, ⟨n, (h.cellsOf old).take n, true⟩],
           { c with m_values := c.m_values.set i (some (h.length + 1)),
                    m_historySizes := c.m_historySizes.set i ((n + 1) % UINT_MOD) }) := by
  have hi1 := lt_of_getElem?_eq _ _ _ hn
  have hi2 := lt_of_getElem?_eq _ _ _ hp
  have hX := hr.length_take
  have e2 := Heap.copyCells_fresh h old n n hr (Nat.le_refl n)
  have e3 := Heap.free_append h [(⟨n, (h.cellsOf old).take n, true⟩ : Block T)] old hf
  have hlen3 : (h.release old ++ [(⟨n, (h.cellsOf old).take n, true⟩ : Block T)]).length
      = h.length + 1 := by simp
  have e5 := Heap.copyCells_fresh
    (h.release old ++ [(⟨n, (h.cellsOf old).take n, true⟩ : Block T)]) (some h.length) n n
    (by
      have := Heap.readable_last (h.release old) (⟨n, (h.cellsOf old).take n, true⟩ : Block T) n
        rfl (by simp only [hX]; exact Nat.le_refl n)
      simpa using this) (Nat.le_refl n)
  have hc5 : (h.release old ++ [(⟨n, (h.cellsOf old).take n, true⟩ : Block T)]).cellsOf
      (some h.length) = (h.cellsOf old).take n := by
    have := Heap.cellsOf_last (h.release old) (⟨n, (h.cellsOf old).take n, true⟩ : Block T)
    simpa using this
  rw [hc5, hlen3] at e5
  have htake : ((h.cellsOf old).take n).take n = (h.cellsOf old).take n := by
    simp
  rw [htake] at e5
  have e6 : (h.release old ++ [(⟨n, (h.cellsOf old).take n, true⟩ : Block T)] ++
      [(⟨n, (h.cellsOf old).take n, true⟩ : Block T)]).free (some h.length) =
      .ok (h.release old ++ [⟨n, (h.cellsOf old).take n, false⟩,
        ⟨n, (h.cellsOf old).take n, true⟩]) := by
    have hb : (h.release old ++ [(⟨n, (h.cellsOf old).take n, true⟩ : Block T)] ++
      [(⟨n, (h.cellsOf old).take n, true⟩ : Block T)])[h.length]? =
        some ⟨n, (h.cellsOf old).take n, true⟩ := by
      rw [List.getElem?_append_left (by simp)]
      rw [List.getElem?_append_right (by simp)]
      simp
    rw [Heap.free_eq _ _ _ hb rfl]
    rw [Heap.set_append_lt _ _ _ _ (by simp)]
    have := Heap.set_concat_length (h.release old)
      (⟨n, (h.cellsOf old).take n, true⟩ : Block T) ⟨n, (h.cellsOf old).take n, false⟩
    simp only [Heap.length_release] at this
    rw [this]
    simp
  simp only [setRealloc, sizeAt_eq c i n hn, ptrAt_eq c i old hp, bind, Except.bind, Heap.alloc,
    e2, e3, hlen3, setPtrAt_eq c i _ hi2, e5, e6, pure, Except.pure]
  rw [setSizeAt_eq _ _ _ (by simpa using hi1)]

end UndoArray

namespace UndoArray

variable {T : Type}

theorem wrap_succ_pred (n : Nat) (hn : n < UINT_MOD) :
    ((n + 1) % UINT_MOD + UINT_MOD - 1) % UINT_MOD = n := by
  unfold UINT_MOD at *
  omega

theorem wrap_pred (n : Nat) (h1 : 1 ≤ n) (hn : n < UINT_MOD) :
    (n + UINT_MOD - 1) % UINT_MOD = n - 1 := by
  unfold UINT_MOD at *
  omega

/-- The last statement of `set` stores at the offset equal to the length of the
block that `set` has just allocated, one past its end: every call of `set`
with an index inside the array ends in that undefined store. -/
theorem set_undefined (h : Heap T) (c : UndoArray) (i n : Nat) (old : Ptr) (v : T)
    (hn : c.m_historySizes[i]? = some n) (hp : c.m_values[i]? = some old)
    (hr : h.Readable old n) (hf : h.Freeable old) (hlt : n < UINT_MOD) :
    set h c i v = .error .wildAccess := by
  have hi1 := lt_of_getElem?_eq _ _ _ hn
  have hi2 := lt_of_getElem?_eq _ _ _ hp
  have hb : (h.release old ++ [(⟨n, (h.cellsOf old).take n, false⟩ : Block T),
      ⟨n, (h.cellsOf old).take n, true⟩])[h.length + 1]? =
        some ⟨n, (h.cellsOf old).take n, true⟩ := by
    rw [List.getElem?_append_right (by simp)]
    simp
  have hst := Heap.store_past_block _ _ n _ v hb (Nat.le_refl n)
  simp only [set, setRealloc_eq h c i n old hn hp hr hf, bind, Except.bind, ptrAt, lastOffset,
    sizeAt, List.getElem?_set_self hi1, List.getElem?_set_self hi2, pure, Except.pure,
    wrap_succ_pred n hlt, hst]

end UndoArray

namespace UndoArray

variable {T : Type}

theorem ok_bind {ε α β : Type} (a : α) (f : α → Except ε β) :
    (Except.ok a >>= f) = f a := rfl

theorem undo_eq (h : Heap T) (c : UndoArray) (i n a : Nat) (b : Block T)
    (hn : c.m_historySizes[i]? = some n) (hp : c.m_values[i]? = some (some a))
    (hb : h[a]? = some b) (hl : b.live = true) (h1 : 1 ≤ n) (hm : n ≤ b.cells.length)
    (hlt : n < UINT_MOD) :
    undo h c i =
      .ok (h.release (some a) ++
            [⟨n, b.cells.take n, false⟩, ⟨n - 1, b.cells.take (n - 1), decide (n ≠ 1)⟩],
           { c with m_values := c.m_values.set i (if n = 1 then none else some (h.length + 1)),
                    m_historySizes := c.m_historySizes.set i (n - 1) }) := by
  have hi1 := lt_of_getElem?_eq _ _ _ hn
  have hi2 := lt_of_getElem?_eq _ _ _ hp
  have hr : h.Readable (some a) n := Or.inr ⟨a, b, rfl, hb, hl, hm⟩
  have hf : h.Freeable (some a) := Or.inr ⟨a, b, rfl, hb, hl⟩
  have hco : h.cellsOf (some a) = b.cells := by simp [Heap.cellsOf, hb]
  have hX : (b.cells.take n).length = n := by simp [hm]
  have e2 := Heap.copyCells_fresh h (some a) n n hr (Nat.le_refl n)
  rw [hco] at e2
  have e3 := Heap.free_append h [(⟨n, b.cells.take n, true⟩ : Block T)] (some a) hf
  have hlen3 : (h.release (some a) ++ [(⟨n, b.cells.take n, true⟩ : Block T)]).length
      = h.length + 1 := by simp
  have e5 := Heap.copyCells_fresh
    (h.release (some a) ++ [(⟨n, b.cells.take n, true⟩ : Block T)]) (some h.length) (n - 1)
    (n - 1)
    (by
      have := Heap.readable_last (h.release (some a)) (⟨n, b.cells.take n, true⟩ : Block T)
        (n - 1) rfl (by simp only [hX]; omega)
      simpa using this) (Nat.le_refl (n - 1))
  have hc5 : (h.release (some a) ++ [(⟨n, b.cells.take n, true⟩ : Block T)]).cellsOf
      (some h.length) = b.cells.take n := by
    have := Heap.cellsOf_last (h.release (some a)) (⟨n, b.cells.take n, true⟩ : Block T)
    simpa using this
  rw [hc5, hlen3] at e5
  have htake : (b.cells.take n).take (n - 1) = b.cells.take (n - 1) := by
    rw [List.take_take]
    congr 1
    omega
  rw [htake] at e5
  have e6 : (h.release (some a) ++ [(⟨n, b.cells.take n, true⟩ : Block T)] ++
      [(⟨n - 1, b.cells.take (n - 1), true⟩ : Block T)]).free (some h.length) =
      .ok (h.release (some a) ++ [⟨n, b.cells.take n, false⟩,
        ⟨n - 1, b.cells.take (n - 1), true⟩]) := by
    have hb2 : (h.release (some a) ++ [(⟨n, b.cells.take n, true⟩ : Block T)] ++
      [(⟨n - 1, b.cells.take (n - 1), true⟩ : Block T)])[h.length]? =
        some ⟨n, b.cells.take n, true⟩ := by
      rw [List.getElem?_append_left (by simp)]
      rw [List.getElem?_append_right (by simp)]
      simp
    rw [Heap.free_eq _ _ _ hb2 rfl]
    rw [Heap.set_append_lt _ _ _ _ (by simp)]
    have := Heap.set_concat_length (h.release (some a))
      (⟨n, b.cells.take n, true⟩ : Block T) ⟨n, b.cells.take n, false⟩
    simp only [Heap.length_release] at this
    rw [this]
    simp
  have e7 : (h.release (some a) ++ [(⟨n, b.cells.take n, false⟩ : Block T),
        ⟨n - 1, b.cells.take (n - 1), true⟩]).free (some (h.length + 1)) =
      .ok (h.release (some a) ++ [⟨n, b.cells.take n, false⟩,
        ⟨n - 1, b.cells.take (n - 1), false⟩]) := by
    have hb3 : (h.release (some a) ++ [(⟨n, b.cells.take n, false⟩ : Block T),
        ⟨n - 1, b.cells.take (n - 1), true⟩])[h.length + 1]? =
        some ⟨n - 1, b.cells.take (n - 1), true⟩ := by
      rw [List.getElem?_append_right (by simp)]
      simp
    rw [Heap.free_eq _ _ _ hb3 rfl]
    rw [List.set_append_right _ _ (by simp)]
    simp
  simp only [undo, initialized, ptrAt, sizeAt, hn, hp, ok_bind, pure, Except.pure,
    Option.isSome_some, if_true, wrap_pred n h1 hlt, Heap.alloc, e2, e3, hlen3]
  simp only [setPtrAt_eq c i _ hi2]
  rw [ok_bind]
  simp only [e5]
  rw [ok_bind]
  simp only [e6]
  rw [ok_bind]
  simp only [hn]
  rw [ok_bind, wrap_pred n h1 hlt]
  simp only [setSizeAt, storeAt_lt _ _ _ hi1]
  rw [ok_bind]
  simp only [List.getElem?_set_self hi1, List.getElem?_set_self hi2, ok_bind]
  by_cases h1n : n = 1
  · subst h1n
    simp only [Nat.sub_self, if_true, e7, ok_bind, setPtrAt,
      storeAt_lt _ _ _ (show i < (c.m_values.set i (some (List.length h + 1))).length by
        simpa using hi2), List.set_set]
    simp
  · have : n - 1 ≠ 0 := by omega
    simp only [this, h1n, if_false]
    simp [h1n]

end UndoArray

namespace Heap

variable {T : Type}

theorem getElem?_release_append (h l : Heap T) (p : Ptr) (a : Nat) (ha : a < h.length)
    (hne : p ≠ some a) : (h.release p ++ l)[a]? = h[a]? := by
  rw [List.getElem?_append_left (by simpa using ha)]
  cases p with
  | none => rfl
  | some s =>
    have hsa : s ≠ a := fun e => hne (by rw [e])
    simp only [release]
    split
    · rw [List.getElem?_set_ne hsa]
    · rfl

theorem getElem?_release_append_right (h l : Heap T) (p : Ptr) (k : Nat) :
    (h.release p ++ l)[h.length + k]? = l[k]? := by
  rw [List.getElem?_append_right (by simp)]
  simp

end Heap

namespace UndoArray

variable {T : Type}

theorem slotPtr_eq (c : UndoArray) (i : Nat) (p : Ptr) (hp : c.m_values[i]? = some p) :
    c.slotPtr i = p := by
  simp [slotPtr, hp]

theorem historyLength_eq (c : UndoArray) (i n : Nat) (hn : c.m_historySizes[i]? = some n) :
    c.historyLength i = n := by
  simp [historyLength, hn]

/-- What the invariant says about one slot, in the form the closed forms of
`set` and `undo` consume. -/
theorem WF.slot {h : Heap T} {c : UndoArray} (hw : WF h c) {i : Nat} (hi : i < c.m_size) :
    c.m_historySizes[i]? = some (c.historyLength i) ∧
    c.m_values[i]? = some (c.slotPtr i) ∧
    c.historyLength i < UINT_MOD ∧
    h.Readable (c.slotPtr i) (c.historyLength i) ∧
    h.Freeable (c.slotPtr i) ∧
    (c.slotPtr i = none → c.historyLength i = 0) := by
  obtain ⟨_, _, hs, _⟩ := hw
  obtain ⟨n, hn, hlt, hcase⟩ := hs i hi
  rw [historyLength_eq c i n hn]
  rcases hcase with ⟨hp, h0⟩ | ⟨a, b, hp, hb, hl, hm⟩
  · rw [slotPtr_eq c i none hp]
    exact ⟨hn, hp, hlt, Or.inl h0, Or.inl rfl, fun _ => h0⟩
  · rw [slotPtr_eq c i (some a) hp]
    exact ⟨hn, hp, hlt, Or.inr ⟨a, b, rfl, hb, hl, hm⟩, Or.inr ⟨a, b, rfl, hb, hl⟩,
      fun e => by cases e⟩

theorem WF.history_length {h : Heap T} {c : UndoArray} (hw : WF h c) {i : Nat}
    (hi : i < c.m_size) : (history h c i).length = c.historyLength i :=
  (hw.slot hi).2.2.2.1.length_take

/-- On a well-formed object every call of `set` with an index below the size
ends in the undefined store one past the block. -/
theorem set_wf {h : Heap T} {c : UndoArray} (hw : WF h c) {i : Nat} (hi : i < c.m_size)
    (v : T) : set h c i v = .error .wildAccess := by
  obtain ⟨hn, hp, hlt, hr, hf, _⟩ := hw.slot hi
  exact set_undefined h c i _ _ v hn hp hr hf hlt

/-- Replacing slot `i` by a pointer into freshly appended blocks, after the
old block of the slot was released, keeps the object well formed. -/
theorem WF.replace {h : Heap T} {c : UndoArray} (hw : WF h c) {i : Nat} (hi : i < c.m_size)
    (l : Heap T) (p1 : Ptr) (n1 : Nat) (hn1 : n1 < UINT_MOD)
    (hp1 : (p1 = none ∧ n1 = 0) ∨
      ∃ k b, p1 = some (h.length + k) ∧ l[k]? = some b ∧ b.live = true ∧ n1 ≤ b.cells.length) :
    WF (h.release (c.slotPtr i) ++ l)
      { c with m_values := c.m_values.set i p1, m_historySizes := c.m_historySizes.set i n1 } := by
  have hsl := hw.slot hi
  obtain ⟨hl1, hl2, hs, hinj⟩ := hw
  have hi1 : i < c.m_historySizes.length := by omega
  have hi2 : i < c.m_values.length := by omega
  have hblk : ∀ j a : Nat, c.m_values[j]? = some (some a) → a < h.length := by
    intro j a hj
    have hjlt : j < c.m_size := by
      have := lt_of_getElem?_eq _ _ _ hj
      omega
    obtain ⟨n, _, _, hcase⟩ := hs j hjlt
    rcases hcase with ⟨hp, _⟩ | ⟨a2, b, hp, hb, _, _⟩
    · rw [hp] at hj; cases hj
    · rw [hp] at hj
      cases hj
      exact Heap.lt_of_getElem? h _ b hb
  refine ⟨by simpa using hl1, by simpa using hl2, ?_, ?_⟩
  · intro j hj
    by_cases hji : j = i
    · subst hji
      refine ⟨n1, by simp [List.getElem?_set_self hi1], hn1, ?_⟩
      rcases hp1 with ⟨rfl, rfl⟩ | ⟨k, b, rfl, hk, hbl, hbn⟩
      · left
        exact ⟨by simp [List.getElem?_set_self hi2], rfl⟩
      · right
        refine ⟨h.length + k, b, by simp [List.getElem?_set_self hi2], ?_, hbl, hbn⟩
        rw [Heap.getElem?_release_append_right]
        exact hk
    · obtain ⟨n, hn, hlt, hcase⟩ := hs j hj
      refine ⟨n, by simpa [List.getElem?_set_ne (Ne.symm hji)] using hn, hlt, ?_⟩
      rcases hcase with ⟨hp, h0⟩ | ⟨a, b, hp, hb, hbl, hbn⟩
      · left
        exact ⟨by simpa [List.getElem?_set_ne (Ne.symm hji)] using hp, h0⟩
      · right
        refine ⟨a, b, by simpa [List.getElem?_set_ne (Ne.symm hji)] using hp, ?_, hbl, hbn⟩
        rw [Heap.getElem?_release_append h l _ a (Heap.lt_of_getElem? h a b hb)]
        · exact hb
        · intro e
          exact hji (hinj j i a hp (by rw [← e]; exact hsl.2.1))
  · intro j k a hj hk
    simp only at hj hk
    by_cases hji : j = i
    · by_cases hki : k = i
      · rw [hji, hki]
      · exfalso
        rw [List.getElem?_set_ne (Ne.symm hki)] at hk
        rw [hji, List.getElem?_set_self hi2] at hj
        have := hblk k a hk
        rcases hp1 with ⟨rfl, _⟩ | ⟨k1, b, rfl, _, _, _⟩
        · cases hj
        · cases hj
          omega
    · rw [List.getElem?_set_ne (Ne.symm hji)] at hj
      by_cases hki : k = i
      · exfalso
        rw [hki, List.getElem?_set_self hi2] at hk
        have := hblk j a hj
        rcases hp1 with ⟨rfl, _⟩ | ⟨k1, b, rfl, _, _, _⟩
        · cases hk
        · cases hk
          omega
      · rw [List.getElem?_set_ne (Ne.symm hki)] at hk
        exact hinj j k a hj hk

end UndoArray

namespace UndoArray

variable {T : Type}

theorem initialized_eq (c : UndoArray) (i : Nat) (p : Ptr) (hp : c.m_values[i]? = some p) :
    c.initialized i = .ok p.isSome := by
  simp only [initialized, ptrAt, hp, ok_bind, pure, Except.pure]

/-- On a well-formed object `get` returns the last value of a non-empty
history. -/
theorem get_of_history {h : Heap T} {c : UndoArray} (hw : WF h c) {i : Nat}
    (hi : i < c.m_size) (h1 : 1 ≤ c.historyLength i) :
    ∃ x, (history h c i)[c.historyLength i - 1]? = some x ∧ get h c i = .ok x := by
  obtain ⟨_, _, hs, _⟩ := hw
  obtain ⟨n, hn, hlt, hcase⟩ := hs i hi
  have hlen := historyLength_eq c i n hn
  rw [hlen] at h1 ⊢
  rcases hcase with ⟨_, h0⟩ | ⟨a, b, hp, hb, hl, hm⟩
  · omega
  · have hx : b.cells[n - 1]? = some (b.cells[n - 1]) :=
      List.getElem?_eq_getElem (by omega)
    refine ⟨b.cells[n - 1], ?_, ?_⟩
    · simp only [history, slotPtr_eq c i _ hp, hlen, Heap.cellsOf, hb]
      rw [List.getElem?_take_of_lt (by omega)]
      exact hx
    · simp only [get, ptrAt, hp, lastOffset, sizeAt, hn, ok_bind, pure, Except.pure]
      rw [wrap_pred n h1 hlt]
      exact Heap.load_eq h a (n - 1) b _ hb hl hx

end UndoArray

namespace Heap

variable {T : Type}

theorem cellsOf_congr (h h1 : Heap T) (a : Nat) (e : h1[a]? = h[a]?) :
    h1.cellsOf (some a) = h.cellsOf (some a) := by
  simp only [cellsOf, e]

theorem load_congr (h h1 : Heap T) (a k : Nat) (e : h1[a]? = h[a]?) :
    h1.load (some a) k = h.load (some a) k := by
  simp only [load, e]

end Heap

namespace UndoArray

variable {T : Type}

theorem initSlots_eq (k : Nat) :
    ∀ c : UndoArray, initSlots k c =
      { c with m_historySizes := c.m_historySizes ++ List.replicate k 0,
               m_values := c.m_values ++ List.replicate k none } := by
  induction k with
  | zero => intro c; simp [initSlots]
  | succ k ih =>
    intro c
    rw [initSlots, ih]
    simp [List.replicate_succ]

theorem create_eq (n : Nat) :
    create n = ⟨n, List.replicate n 0, List.replicate n none⟩ := by
  simp [create, initSlots_eq]

theorem create_sizes (n i : Nat) (hi : i < n) : (create n).m_historySizes[i]? = some 0 := by
  rw [create_eq]
  simp [List.getElem?_replicate, hi]

theorem create_values (n i : Nat) (hi : i < n) : (create n).m_values[i]? = some none := by
  rw [create_eq]
  simp [List.getElem?_replicate, hi]

theorem create_values_ne (n i a : Nat) : (create n).m_values[i]? ≠ some (some a) := by
  rw [create_eq]
  simp [List.getElem?_replicate]

/-- A freshly constructed object is well formed in any heap. -/
theorem WF_create (h : Heap T) (n : Nat) : WF h (create n) := by
  refine ⟨by simp [create_eq], by simp [create_eq], ?_, ?_⟩
  · intro i hi
    have hi2 : i < n := by simpa [create_eq] using hi
    exact ⟨0, create_sizes n i hi2, by unfold UINT_MOD; omega,
      Or.inl ⟨create_values n i hi2, rfl⟩⟩
  · intro i j a hi _
    exact absurd hi (create_values_ne n i a)

/-- On a well-formed object every slot pointer is `NULL` or the address of a
block of the heap, and different slots have different blocks. -/
theorem WF.ptr_cases {h : Heap T} {c : UndoArray} (hw : WF h c) (i j : Nat) (hji : j ≠ i) :
    c.slotPtr j = none ∨ ∃ a, c.slotPtr j = some a ∧ a < h.length ∧ c.slotPtr i ≠ some a := by
  cases hj : c.m_values[j]? with
  | none => left; simp [slotPtr, hj]
  | some p =>
    cases p with
    | none => left; simp [slotPtr, hj]
    | some a =>
      right
      have hjlt : j < c.m_size := by
        have := lt_of_getElem?_eq _ _ _ hj
        have := hw.2.1
        omega
      obtain ⟨n, _, _, hcase⟩ := hw.2.2.1 j hjlt
      refine ⟨a, slotPtr_eq c j _ hj, ?_, ?_⟩
      · rcases hcase with ⟨hp, _⟩ | ⟨a2, b, hp, hb, _, _⟩
        · rw [hp] at hj; cases hj
        · rw [hp] at hj
          cases hj
          exact Heap.lt_of_getElem? h _ b hb
      · intro e
        cases hi : c.m_values[i]? with
        | none => simp [slotPtr, hi] at e
        | some q =>
          rw [slotPtr_eq c i q hi] at e
          subst e
          exact hji (hw.2.2.2 j i a hj hi)

/-- Frame: replacing slot `i` leaves every other slot as it was. -/
theorem WF.frame_replace {h : Heap T} {c : UndoArray} (hw : WF h c) (i j : Nat) (hji : j ≠ i)
    (l : Heap T) (p1 : Ptr) (n1 : Nat) :
    let c1 : UndoArray :=
      { c with m_values := c.m_values.set i p1, m_historySizes := c.m_historySizes.set i n1 }
    let h1 := h.release (c.slotPtr i) ++ l
    c1.m_historySizes[j]? = c.m_historySizes[j]? ∧ c1.m_values[j]? = c.m_values[j]? ∧
      history h1 c1 j = history h c j ∧ get h1 c1 j = get h c j ∧
      c1.initialized j = c.initialized j := by
  intro c1 h1
  have e1 : c1.m_historySizes[j]? = c.m_historySizes[j]? := by
    simp only [c1, List.getElem?_set_ne (Ne.symm hji)]
  have e2 : c1.m_values[j]? = c.m_values[j]? := by
    simp only [c1, List.getElem?_set_ne (Ne.symm hji)]
  have e3 : c1.slotPtr j = c.slotPtr j := by simp only [slotPtr, e2]
  have e4 : c1.historyLength j = c.historyLength j := by simp only [historyLength, e1]
  refine ⟨e1, e2, ?_, ?_, ?_⟩
  · simp only [history, e3, e4]
    rcases hw.ptr_cases i j hji with hnone | ⟨a, ha, halt, hne⟩
    · rw [hnone]; rfl
    · rw [ha, Heap.cellsOf_congr h h1 a (Heap.getElem?_release_append h l _ a halt hne)]
  · simp only [get, ptrAt, lastOffset, sizeAt, e1, e2]
    cases hj : c.m_values[j]? with
    | none => rfl
    | some p =>
      cases hs : c.m_historySizes[j]? with
      | none => rfl
      | some n =>
        simp only [ok_bind, pure, Except.pure]
        rcases hw.ptr_cases i j hji with hnone | ⟨a, ha, halt, hne⟩
        · rw [slotPtr_eq c j p hj] at hnone
          subst hnone
          rfl
        · rw [slotPtr_eq c j p hj] at ha
          subst ha
          exact Heap.load_congr h h1 a _ (Heap.getElem?_release_append h l _ a halt hne)
  · simp only [initialized, ptrAt, e2]

end UndoArray

namespace UndoArray

variable {T : Type}

/-- Closed form of `undo` on a well-formed object whose slot has history. -/
theorem undo_wf {h : Heap T} {c : UndoArray} (hw : WF h c) {i : Nat} (hi : i < c.m_size)
    (h1 : 1 ≤ c.historyLength i) :
    undo h c i =
      .ok (h.release (c.slotPtr i) ++
            [⟨c.historyLength i, history h c i, false⟩,
             ⟨c.historyLength i - 1, (history h c i).take (c.historyLength i - 1),
               decide (c.historyLength i ≠ 1)⟩],
           { c with m_values := c.m_values.set i
                      (if c.historyLength i = 1 then none else some (h.length + 1)),
                    m_historySizes := c.m_historySizes.set i (c.historyLength i - 1) }) := by
  obtain ⟨_, _, hs, _⟩ := hw
  obtain ⟨n, hn, hlt, hcase⟩ := hs i hi
  have hlen := historyLength_eq c i n hn
  rw [hlen] at h1 ⊢
  rcases hcase with ⟨_, h0⟩ | ⟨a, b, hp, hb, hl, hm⟩
  · omega
  · have htake : (b.cells.take n).take (n - 1) = b.cells.take (n - 1) := by
      rw [List.take_take]
      congr 1
      omega
    simp only [history, slotPtr_eq c i _ hp, hlen, Heap.cellsOf, hb, htake]
    exact undo_eq h c i n a b hn hp hb hl h1 hm hlt

theorem history_replace_self (h l : Heap T) (q : Ptr) (c : UndoArray) (i k n1 : Nat)
    (b : Block T) (hi1 : i < c.m_historySizes.length) (hi2 : i < c.m_values.length)
    (hk : l[k]? = some b) :
    history (h.release q ++ l)
      { c with m_values := c.m_values.set i (some (h.length + k)),
               m_historySizes := c.m_historySizes.set i n1 } i = b.cells.take n1 := by
  simp only [history, slotPtr, historyLength, List.getElem?_set_self hi1,
    List.getElem?_set_self hi2, Option.getD_some, Heap.cellsOf,
    Heap.getElem?_release_append_right, hk]

/-- One `undo` step in terms of the history. -/
theorem undo_step {h : Heap T} {c : UndoArray} (hw : WF h c) {i : Nat} (hi : i < c.m_size)
    (h1 : 1 ≤ c.historyLength i) :
    ∃ h1 c1, undo h c i = .ok (h1, c1) ∧ WF h1 c1 ∧ c1.m_size = c.m_size ∧
      c1.historyLength i = c.historyLength i - 1 ∧
      history h1 c1 i = (history h c i).take (c.historyLength i - 1) ∧
      (c.historyLength i = 1 → c1.m_values[i]? = some none) := by
  have hlenX := hw.history_length hi
  obtain ⟨hn, hp, hlt, _, _, _⟩ := hw.slot hi
  have hi1 := lt_of_getElem?_eq _ _ _ hn
  have hi2 := lt_of_getElem?_eq _ _ _ hp
  refine ⟨_, _, undo_wf hw hi h1, ?_, rfl, ?_, ?_, ?_⟩
  · refine hw.replace hi _ _ _ (by omega) ?_
    by_cases h1n : c.historyLength i = 1
    · left
      exact ⟨by simp [h1n], by omega⟩
    · right
      refine ⟨1, ⟨c.historyLength i - 1, (history h c i).take (c.historyLength i - 1),
        decide (c.historyLength i ≠ 1)⟩, by simp [h1n], rfl, by simp [h1n], ?_⟩
      simp only [List.length_take, hlenX]
      omega
  · simp only [historyLength, List.getElem?_set_self hi1, Option.getD_some]
  · by_cases h1n : c.historyLength i = 1
    · simp only [h1n, if_true, Nat.sub_self, List.take_zero]
      simp only [history, historyLength, List.getElem?_set_self hi1, Option.getD_some,
        List.take_zero]
    · simp only [h1n, if_false]
      rw [history_replace_self h _ _ c i 1 _
        ⟨c.historyLength i - 1, (history h c i).take (c.historyLength i - 1), true⟩ hi1 hi2
        (by simp [h1n])]
      simp [List.take_take]
  · intro h1n
    simp [h1n, List.getElem?_set_self hi2]

end UndoArray

namespace UndoArray

variable {T : Type}

theorem create_size (n : Nat) : (create n).m_size = n := by
  simp [create_eq]

theorem slotPtr_create (n i : Nat) : (create n).slotPtr i = none := by
  simp only [slotPtr, create_eq, List.getElem?_replicate]
  split <;> rfl

theorem historyLength_create (n i : Nat) : (create n).historyLength i = 0 := by
  simp only [historyLength, create_eq, List.getElem?_replicate]
  split <;> rfl

theorem history_create (h : Heap T) (n i : Nat) : history h (create n) i = [] := by
  simp only [history, slotPtr_create, Heap.cellsOf, List.take_nil]

theorem undoN_history (i : Nat) (m : Nat) :
    ∀ (h : Heap T) (c : UndoArray), WF h c → i < c.m_size → m ≤ c.historyLength i →
      ∃ h1 c1, undoN i m h c = .ok (h1, c1) ∧ WF h1 c1 ∧ c1.m_size = c.m_size ∧
        c1.historyLength i = c.historyLength i - m ∧
        history h1 c1 i = (history h c i).take (c.historyLength i - m) ∧
        (1 ≤ m → c.historyLength i = m → c1.m_values[i]? = some none) := by
  induction m with
  | zero =>
    intro h c hw hi _
    refine ⟨h, c, rfl, hw, rfl, rfl, ?_, fun h0 => absurd h0 (by omega)⟩
    rw [Nat.sub_zero, ← hw.history_length hi, List.take_length]
  | succ m ih =>
    intro h c hw hi hm
    obtain ⟨h1, c1, hun, hw1, hsz1, hlen1, hhist1, hnull1⟩ := undo_step hw hi (by omega)
    obtain ⟨h2, c2, hall, hw2, hsz2, hlen2, hhist2, hnull2⟩ :=
      ih h1 c1 hw1 (by omega) (by omega)
    refine ⟨h2, c2, ?_, hw2, by omega, by omega, ?_, ?_⟩
    · rw [undoN, hun, ok_bind]
      exact hall
    · rw [hhist2, hhist1, List.take_take, hlen1]
      congr 1
      omega
    · intro _ hmm
      cases m with
      | zero =>
        simp only [undoN] at hall
        cases hall
        exact hnull1 (by omega)
      | succ m2 => exact hnull2 (by omega) (by omega)

end UndoArray

namespace Heap

variable {T : Type}

theorem copyCells_load_error (src dst : Ptr) (k i : Nat) (h : Heap T) (e : Fault)
    (he : h.load src i = .error e) : copyCells src dst (k + 1) i h = .error e := by
  simp only [copyCells, he]
  rfl

theorem copyCells_zero (src dst : Ptr) (i : Nat) (h : Heap T) :
    copyCells src dst 0 i h = .ok h := rfl

end Heap

namespace UndoArray

variable {T : Type}

theorem error_bind {ε α β : Type} (e : ε) (f : α → Except ε β) :
    ((Except.error e : Except ε α) >>= f) = .error e := rfl

theorem wrap_pred_zero (n : Nat) (hn0 : n = 0) :
    ∃ k, (n + UINT_MOD - 1) % UINT_MOD = k + 1 := by
  refine ⟨4294967294, ?_⟩
  unfold UINT_MOD
  omega

/-- The call `undo` on a slot that has a block but no history: the assertion
passes, `newSize` wraps around to `UINT_MAX` and the second copy loop reads the
empty temporary block. -/
theorem undo_eq_zero (h : Heap T) (c : UndoArray) (i n a : Nat) (b : Block T)
    (hn : c.m_historySizes[i]? = some n) (hn0 : n = 0)
    (hp : c.m_values[i]? = some (some a)) (hb : h[a]? = some b) (hl : b.live = true) :
    undo h c i = .error .wildAccess := by
  obtain ⟨k, hk⟩ := wrap_pred_zero n hn0
  have hi2 := lt_of_getElem?_eq _ _ _ hp
  have hr : h.Readable (some a) n := Or.inl hn0
  have hf : h.Freeable (some a) := Or.inr ⟨a, b, rfl, hb, hl⟩
  have hX : ((h.cellsOf (some a)).take n)[0]? = none := by
    rw [hn0]
    rfl
  have e2 := Heap.copyCells_fresh h (some a) n n hr (Nat.le_refl n)
  have e3 := Heap.free_append h [(⟨n, (h.cellsOf (some a)).take n, true⟩ : Block T)] (some a) hf
  have hlen3 : (h.release (some a) ++
      [(⟨n, (h.cellsOf (some a)).take n, true⟩ : Block T)]).length = h.length + 1 := by
    simp
  have hload : (h.release (some a) ++ [(⟨n, (h.cellsOf (some a)).take n, true⟩ : Block T)] ++
      [(⟨k + 1, [], true⟩ : Block T)]).load (some h.length) 0 =
        .error .wildAccess := by
    have hb2 : (h.release (some a) ++ [(⟨n, (h.cellsOf (some a)).take n, true⟩ : Block T)] ++
      [(⟨k + 1, [], true⟩ : Block T)])[h.length]? =
        some ⟨n, (h.cellsOf (some a)).take n, true⟩ := by
      rw [List.getElem?_append_left (by simp)]
      rw [List.getElem?_append_right (by simp)]
      simp
    simp only [Heap.load, hb2, hX, if_true]
  have e5 := Heap.copyCells_load_error (some h.length) (some (h.length + 1)) k 0 _ _ hload
  simp only [undo, initialized, ptrAt, sizeAt, hn, hp, ok_bind, pure, Except.pure,
    Option.isSome_some, if_true, hk, Heap.alloc, e2, e3, hlen3]
  simp only [setPtrAt_eq c i _ hi2]
  rw [ok_bind, e5, error_bind]

/-- On a well-formed object `undo` completes only on a slot with history. -/
theorem undo_ok_pos {h : Heap T} {c : UndoArray} (hw : WF h c) {i : Nat} (hi : i < c.m_size)
    (r : Heap T × UndoArray) (hr : undo h c i = .ok r) : 1 ≤ c.historyLength i := by
  obtain ⟨_, _, hs, _⟩ := hw
  obtain ⟨n, hn, _, hcase⟩ := hs i hi
  rw [historyLength_eq c i n hn]
  rcases hcase with ⟨hp, _⟩ | ⟨a, b, hp, hb, hl, _⟩
  · exfalso
    simp only [undo, initialized, ptrAt, hp, ok_bind, pure, Except.pure] at hr
    cases hr
  · by_contra hlt
    have h0 : n = 0 := by omega
    rw [undo_eq_zero h c i n a b hn h0 hp hb hl] at hr
    cases hr

end UndoArray

namespace Heap

variable {T : Type}

theorem cellsDiffer_blocks [BEq T] [LawfulBEq T] (h : Heap T) (p q : Nat) (bp bq : Block T)
    (hp : h[p]? = some bp) (hpl : bp.live = true) (hq : h[q]? = some bq)
    (hql : bq.live = true) :
    ∀ k j : Nat, j + k ≤ bp.cells.length → j + k ≤ bq.cells.length →
      ∃ r, cellsDiffer (some p) (some q) k j h = .ok r ∧
        (r = false ↔ (bp.cells.drop j).take k = (bq.cells.drop j).take k) := by
  intro k
  induction k with
  | zero =>
    intro j _ _
    exact ⟨false, rfl, by simp⟩
  | succ k ih =>
    intro j hjp hjq
    have hjp1 : j < bp.cells.length := by omega
    have hjq1 : j < bq.cells.length := by omega
    have hx := load_eq h p j bp _ hp hpl (List.getElem?_eq_getElem hjp1)
    have hy := load_eq h q j bq _ hq hql (List.getElem?_eq_getElem hjq1)
    obtain ⟨r, hr, hiff⟩ := ih (j + 1) (by omega) (by omega)
    rw [List.drop_eq_getElem_cons hjp1, List.drop_eq_getElem_cons hjq1,
      List.take_succ_cons, List.take_succ_cons]
    by_cases hxy : bp.cells[j] = bq.cells[j]
    · refine ⟨r, ?_, ?_⟩
      · simp only [cellsDiffer, hx, hy, UndoArray.ok_bind, hxy, bne_self_eq_false,
          Bool.false_eq_true, if_false]
        exact hr
      · rw [hiff, hxy]
        simp
    · refine ⟨true, ?_, ?_⟩
      · have hne : (bp.cells[j] != bq.cells[j]) = true := by simpa using hxy
        simp only [cellsDiffer, hx, hy, UndoArray.ok_bind, hne, if_true]
        rfl
      · simp [hxy]

/-- The inner loop of `isEqualTo` on two readable slots: it reports a
difference exactly when the first `n` cells differ. -/
theorem cellsDiffer_readable [BEq T] [LawfulBEq T] (h : Heap T) (p q : Ptr) (n : Nat)
    (hp : h.Readable p n) (hq : h.Readable q n) :
    ∃ r, cellsDiffer p q n 0 h = .ok r ∧
      (r = false ↔ (h.cellsOf p).take n = (h.cellsOf q).take n) := by
  rcases hp with rfl | ⟨s, bs, rfl, hs, hsl, hsn⟩
  · exact ⟨false, rfl, by simp⟩
  · rcases hq with rfl | ⟨t, bt, rfl, ht, htl, htn⟩
    · exact ⟨false, rfl, by simp⟩
    · obtain ⟨r, hr, hiff⟩ := cellsDiffer_blocks h s t bs bt hs hsl ht htl n 0
        (by omega) (by omega)
      refine ⟨r, hr, ?_⟩
      simpa [cellsOf, hs, ht] using hiff

end Heap

namespace UndoArray

variable {T : Type}

theorem slotsEqual_spec [BEq T] [LawfulBEq T] {h : Heap T} {a b : UndoArray}
    (hwa : WF h a) (hwb : WF h b) (hsz : a.m_size = b.m_size) :
    ∀ k i : Nat, i + k = a.m_size →
      ∃ r, slotsEqual a b k i h = .ok r ∧
        (r = true ↔ ∀ j, i ≤ j → j < a.m_size →
          a.historyLength j = b.historyLength j ∧ history h a j = history h b j) := by
  intro k
  induction k with
  | zero =>
    intro i hi
    refine ⟨true, rfl, ?_⟩
    simp only [true_iff]
    intro j h1 h2
    omega
  | succ k ih =>
    intro i hi
    have hia : i < a.m_size := by omega
    have hib : i < b.m_size := by omega
    obtain ⟨hna, hpa, _, hra, _, _⟩ := hwa.slot hia
    obtain ⟨hnb, hpb, _, hrb, _, _⟩ := hwb.slot hib
    obtain ⟨r, hr, hiff⟩ := ih (i + 1) (by omega)
    by_cases hlen : a.historyLength i = b.historyLength i
    · rw [← hlen] at hrb
      obtain ⟨d, hd, hdiff⟩ := Heap.cellsDiffer_readable h _ _ _ hra hrb
      cases d with
      | false =>
        refine ⟨r, ?_, ?_⟩
        · simp only [slotsEqual, sizeAt, ptrAt, hna, hnb, hpa, hpb, ok_bind, hlen, ne_eq,
            not_true_eq_false, if_false]
          rw [← hlen, hd, ok_bind]
          simpa using hr
        · rw [hiff]
          constructor
          · intro hall j h1 h2
            by_cases hji : j = i
            · subst hji
              refine ⟨hlen, ?_⟩
              simp only [history, ← hlen]
              exact hdiff.mp rfl
            · exact hall j (by omega) h2
          · intro hall j h1 h2
            exact hall j (by omega) h2
      | true =>
        refine ⟨false, ?_, ?_⟩
        · simp only [slotsEqual, sizeAt, ptrAt, hna, hnb, hpa, hpb, ok_bind, hlen, ne_eq,
            not_true_eq_false, if_false]
          rw [← hlen, hd, ok_bind]
          simp only [if_true]
          rfl
        · simp only [Bool.false_eq_true, false_iff]
          intro hall
          obtain ⟨_, hh⟩ := hall i (Nat.le_refl i) hia
          simp only [history, ← hlen] at hh
          have := hdiff.mpr hh
          cases this
    · refine ⟨false, ?_, ?_⟩
      · simp only [slotsEqual, sizeAt, hna, hnb, ok_bind, ne_eq, hlen, not_false_eq_true,
          if_true]
        rfl
      · simp only [Bool.false_eq_true, false_iff]
        intro hall
        exact hlen (hall i (Nat.le_refl i) hia).1

/-- What `isEqualTo` computes on two well-formed objects of one heap. -/
theorem isEqualTo_spec [BEq T] [LawfulBEq T] {h : Heap T} {a b : UndoArray}
    (hwa : WF h a) (hwb : WF h b) :
    ∃ r, isEqualTo h a b = .ok r ∧
      (r = true ↔ (a.m_size = b.m_size ∧ ∀ i, i < a.m_size →
        a.historyLength i = b.historyLength i ∧ history h a i = history h b i)) := by
  by_cases hsz : a.m_size = b.m_size
  · obtain ⟨r, hr, hiff⟩ := slotsEqual_spec hwa hwb hsz a.m_size 0 (by omega)
    refine ⟨r, ?_, ?_⟩
    · simp only [isEqualTo, hsz, ne_eq, not_true_eq_false, if_false]
      rw [← hsz]
      exact hr
    · rw [hiff]
      constructor
      · intro hall
        exact ⟨hsz, fun i hi => hall i (Nat.zero_le i) hi⟩
      · intro hall j _ hj
        exact hall.2 j hj
  · refine ⟨false, ?_, ?_⟩
    · simp only [isEqualTo, ne_eq, hsz, not_false_eq_true, if_true]
    · simp only [Bool.false_eq_true, false_iff]
      intro hall
      exact hsz hall.1

end UndoArray

namespace Heap

variable {T : Type}

theorem Readable.mono_append {h : Heap T} {p : Ptr} {m : Nat} (hr : h.Readable p m) (l : Heap T) :
    (h ++ l).Readable p m := by
  rcases hr with h0 | ⟨s, bs, hp, hs, hl, hm⟩
  · exact Or.inl h0
  · refine Or.inr ⟨s, bs, hp, ?_, hl, hm⟩
    rw [List.getElem?_append_left (lt_of_getElem? h s bs hs)]
    exact hs

theorem Freeable.cellsOf_append {h : Heap T} {p : Ptr} (hf : h.Freeable p) (l : Heap T) :
    (h ++ l).cellsOf p = h.cellsOf p := by
  rcases hf with rfl | ⟨s, bs, rfl, hs, _⟩
  · rfl
  · simp only [cellsOf, List.getElem?_append_left (lt_of_getElem? h s bs hs)]

end Heap

namespace UndoArray

variable {T : Type}

/-- Allocation never disturbs a well-formed object: the heap only grows. -/
theorem WF.heap_append {h : Heap T} {c : UndoArray} (hw : WF h c) (l : Heap T) : WF (h ++ l) c := by
  obtain ⟨h1, h2, hs, hinj⟩ := hw
  refine ⟨h1, h2, ?_, hinj⟩
  intro i hi
  obtain ⟨n, hn, hlt, hcase⟩ := hs i hi
  refine ⟨n, hn, hlt, ?_⟩
  rcases hcase with hnull | ⟨a, b, hp, hb, hl, hm⟩
  · exact Or.inl hnull
  · refine Or.inr ⟨a, b, hp, ?_, hl, hm⟩
    rw [List.getElem?_append_left (Heap.lt_of_getElem? h a b hb)]
    exact hb

theorem WF.history_append {h : Heap T} {c : UndoArray} (hw : WF h c) (l : Heap T) (i : Nat) :
    history (h ++ l) c i = history h c i := by
  by_cases hi : i < c.m_size
  · simp only [history, (hw.slot hi).2.2.2.2.1.cellsOf_append l]
  · have : c.m_values[i]? = none := by
      apply List.getElem?_eq_none
      have := hw.2.1
      omega
    simp only [history, slotPtr, this, Option.getD_none, Heap.cellsOf]

theorem take_succ_getElem? {α : Type} (l : List α) (i : Nat) (x : α) (hx : l[i]? = some x) :
    l.take i ++ [x] = l.take (i + 1) := by
  rw [List.take_succ, hx]
  rfl

/-- Closed form of the deep-copy loop, started on empty top-level arrays. -/
theorem copySlots_eq {h0 : Heap T} {A : UndoArray} (hw : WF h0 A) (sz : Nat) :
    ∀ k i : Nat, i + k = A.m_size →
      copySlots A k i
          (h0 ++ (List.range i).map
            (fun j => (⟨A.historyLength j, history h0 A j, true⟩ : Block T)))
          ⟨sz, A.m_historySizes.take i, (List.range i).map (fun j => some (h0.length + j))⟩ =
        .ok (h0 ++ (List.range (i + k)).map
              (fun j => (⟨A.historyLength j, history h0 A j, true⟩ : Block T)),
             ⟨sz, A.m_historySizes.take (i + k),
               (List.range (i + k)).map (fun j => some (h0.length + j))⟩) := by
  intro k
  induction k with
  | zero =>
    intro i _
    rfl
  | succ k ih =>
    intro i hi
    have hiA : i < A.m_size := by omega
    obtain ⟨hn, hp, _, hr, hf, _⟩ := hw.slot hiA
    have hlenS : (A.m_historySizes.take i).length = i := by
      rw [List.length_take, hw.1]
      omega
    have hlenP : ((List.range i).map (fun j => (some (h0.length + j) : Ptr))).length = i := by
      simp
    have hlenH : (h0 ++ (List.range i).map
        (fun j => (⟨A.historyLength j, history h0 A j, true⟩ : Block T))).length
          = h0.length + i := by
      simp
    have e1 : storeAt (A.m_historySizes.take i) i (A.historyLength i) =
        .ok (A.m_historySizes.take (i + 1)) := by
      have := storeAt_length (A.m_historySizes.take i) (A.historyLength i)
      rw [hlenS, take_succ_getElem? _ _ _ hn] at this
      exact this
    have e2 : (A.m_historySizes.take (i + 1))[i]? = some (A.historyLength i) := by
      rw [List.getElem?_take_of_lt (by omega)]
      exact hn
    have e3 : storeAt ((List.range i).map (fun j => (some (h0.length + j) : Ptr))) i
        (some (h0.length + i)) =
        .ok ((List.range (i + 1)).map (fun j => (some (h0.length + j) : Ptr))) := by
      have := storeAt_length ((List.range i).map (fun j => (some (h0.length + j) : Ptr)))
        (some (h0.length + i))
      rw [hlenP] at this
      rw [this, List.range_succ, List.map_append]
      rfl
    have e4 : ((List.range (i + 1)).map (fun j => (some (h0.length + j) : Ptr)))[i]? =
        some (some (h0.length + i)) := by
      simp [List.getElem?_range]
    have e5 := Heap.copyCells_fresh
      (h0 ++ (List.range i).map
        (fun j => (⟨A.historyLength j, history h0 A j, true⟩ : Block T)))
      (A.slotPtr i) (A.historyLength i) (A.historyLength i) (hr.mono_append _)
      (Nat.le_refl _)
    rw [hlenH, hf.cellsOf_append] at e5
    have e6 : h0 ++ (List.range i).map
          (fun j => (⟨A.historyLength j, history h0 A j, true⟩ : Block T)) ++
          [(⟨A.historyLength i, (h0.cellsOf (A.slotPtr i)).take (A.historyLength i), true⟩ :
            Block T)] =
        h0 ++ (List.range (i + 1)).map
          (fun j => (⟨A.historyLength j, history h0 A j, true⟩ : Block T)) := by
      rw [List.range_succ, List.map_append, List.append_assoc]
      rfl
    rw [e6] at e5
    simp only [copySlots, sizeAt, ptrAt, setSizeAt, setPtrAt, hn, hp, ok_bind, e1, e2, e3, e4,
      Heap.alloc, hlenH, e5]
    have := ih (i + 1) (by omega)
    rw [show i + 1 + k = i + (k + 1) by omega] at this
    exact this

end UndoArray

namespace UndoArray

variable {T : Type}

/-- A well-formed object stays well formed in any heap that keeps its blocks. -/
theorem WF.of_unchanged {h h1 : Heap T} {d : UndoArray} (hw : WF h d)
    (hu : Unchanged h h1 d) : WF h1 d := by
  obtain ⟨e1, e2, hs, hinj⟩ := hw
  refine ⟨e1, e2, ?_, hinj⟩
  intro i hi
  obtain ⟨n, hn, hlt, hcase⟩ := hs i hi
  refine ⟨n, hn, hlt, ?_⟩
  rcases hcase with hnull | ⟨a, b, hp, hb, hl, hm⟩
  · exact Or.inl hnull
  · exact Or.inr ⟨a, b, hp, by rw [hu i a hp]; exact hb, hl, hm⟩

theorem history_of_unchanged {h h1 : Heap T} {d : UndoArray} (hu : Unchanged h h1 d)
    (i : Nat) : history h1 d i = history h d i := by
  cases hp : d.m_values[i]? with
  | none => simp only [history, slotPtr, hp, Option.getD_none, Heap.cellsOf]
  | some p =>
    cases p with
    | none => simp only [history, slotPtr, hp, Option.getD_some, Heap.cellsOf]
    | some a => simp only [history, slotPtr, hp, Option.getD_some, Heap.cellsOf, hu i a hp]

theorem history_of_block (h : Heap T) (c : UndoArray) (i a : Nat) (b : Block T)
    (hp : c.m_values[i]? = some (some a)) (hb : h[a]? = some b) :
    history h c i = b.cells.take (c.historyLength i) := by
  simp only [history, slotPtr, hp, Option.getD_some, Heap.cellsOf, hb]

/-- What the deep-copy loop produces from a well-formed source: new blocks
appended to the heap, and an object over those blocks that is well formed
and has the source's size, recorded lengths and histories. -/
theorem copySlots_spec {h0 : Heap T} {A : UndoArray} (hw : WF h0 A) :
    ∃ l B, copySlots A A.m_size 0 h0 ⟨A.m_size, [], []⟩ = .ok (h0 ++ l, B) ∧
      WF (h0 ++ l) B ∧ B.m_size = A.m_size ∧
      (∀ i, i < A.m_size →
        B.historyLength i = A.historyLength i ∧ history (h0 ++ l) B i = history h0 A i) ∧
      (∀ i a : Nat, B.m_values[i]? = some (some a) → h0.length ≤ a) := by
  have key := copySlots_eq hw A.m_size A.m_size 0 (by omega)
  simp only [List.range_zero, List.map_nil, List.append_nil, List.take_zero,
    Nat.zero_add] at key
  have htake : A.m_historySizes.take A.m_size = A.m_historySizes :=
    List.take_of_length_le (by rw [hw.1])
  rw [htake] at key
  have hptr : ∀ i, i < A.m_size →
      ((List.range A.m_size).map (fun j => (some (h0.length + j) : Ptr)))[i]? =
        some (some (h0.length + i)) := by
    intro i hi
    simp [List.getElem?_range, hi]
  have hblk : ∀ i, i < A.m_size →
      (h0 ++ (List.range A.m_size).map
        (fun j => (⟨A.historyLength j, history h0 A j, true⟩ : Block T)))[h0.length + i]? =
        some ⟨A.historyLength i, history h0 A i, true⟩ := by
    intro i hi
    rw [List.getElem?_append_right (by omega)]
    simp [List.getElem?_range, hi]
  refine ⟨_, _, key, ?_, rfl, ?_, ?_⟩
  · refine ⟨hw.1, by simp, ?_, ?_⟩
    · intro i hi
      have hiA : i < A.m_size := hi
      obtain ⟨hn, _, hlt, _, _, _⟩ := hw.slot hiA
      refine ⟨A.historyLength i, hn, hlt, Or.inr ⟨h0.length + i, _, hptr i hiA, hblk i hiA,
        rfl, ?_⟩⟩
      simp only [hw.history_length hiA]
      exact Nat.le_refl _
    · intro i j a hi hj
      have hi1 : i < A.m_size := by
        have := lt_of_getElem?_eq _ _ _ hi
        simpa using this
      have hj1 : j < A.m_size := by
        have := lt_of_getElem?_eq _ _ _ hj
        simpa using this
      simp only at hi hj
      rw [hptr i hi1] at hi
      rw [hptr j hj1] at hj
      cases hi
      simp only [Option.some.injEq] at hj
      omega
  · intro i hi
    refine ⟨rfl, ?_⟩
    rw [history_of_block _ _ i _ _ (hptr i hi) (hblk i hi)]
    exact List.take_of_length_le (by rw [hw.history_length hi]; exact Nat.le_refl _)
  · intro i a hi
    have hi1 : i < A.m_size := by
      have := lt_of_getElem?_eq _ _ _ hi
      simpa using this
    simp only at hi
    rw [hptr i hi1] at hi
    cases hi
    omega

/-- The release loop of `operator=` on a well-formed object: it completes and
touches no block other than the slots of the object. -/
theorem freeSlots_spec {h : Heap T} {c : UndoArray} (hw : WF h c) :
    ∀ (k i : Nat) (h1 : Heap T), i + k = c.m_size →
      (∀ j, i ≤ j → j < c.m_size → h1.Freeable (c.slotPtr j)) →
      (∀ a : Nat, (∀ j : Nat, c.m_values[j]? ≠ some (some a)) → h1[a]? = h[a]?) →
      ∃ h2, freeSlots c k i h1 = .ok h2 ∧
        ∀ a : Nat, (∀ j : Nat, c.m_values[j]? ≠ some (some a)) → h2[a]? = h[a]? := by
  intro k
  induction k with
  | zero =>
    intro i h1 _ _ hu
    exact ⟨h1, rfl, hu⟩
  | succ k ih =>
    intro i h1 hi hfree hu
    have hic : i < c.m_size := by omega
    obtain ⟨_, hp, _, _, _, _⟩ := hw.slot hic
    cases hpi : c.slotPtr i with
    | none =>
      rw [hpi] at hp
      obtain ⟨h2, hrun, hu2⟩ := ih (i + 1) h1 (by omega)
        (fun j h1j h2j => hfree j (by omega) h2j) hu
      refine ⟨h2, ?_, hu2⟩
      simp only [freeSlots, ptrAt, hp, ok_bind, Option.isSome_none, Bool.false_eq_true,
        if_false, pure, Except.pure]
      exact hrun
    | some a =>
      rw [hpi] at hp
      have hfa := hfree i (Nat.le_refl i) hic
      rw [hpi] at hfa
      rcases hfa with hnone | ⟨s, bs, hs, hbs, hsl⟩
      · cases hnone
      · cases hs
        have hfr := Heap.free_eq h1 a bs hbs hsl
        obtain ⟨h2, hrun, hu2⟩ := ih (i + 1) (h1.set a { bs with live := false }) (by omega)
          (by
            intro j h1j h2j
            rcases hfree j (by omega) h2j with hnone | ⟨s, b2, hs2, hb2, hl2⟩
            · exact Or.inl hnone
            · refine Or.inr ⟨s, b2, hs2, ?_, hl2⟩
              have hne : a ≠ s := by
                intro e
                subst e
                have hpj := (hw.slot h2j).2.1
                rw [hs2] at hpj
                have := hw.2.2.2 i j a hp hpj
                omega
              rw [List.getElem?_set_ne hne]
              exact hb2)
          (by
            intro a2 hna
            have hne : a ≠ a2 := by
              intro e
              subst e
              exact hna i hp
            rw [List.getElem?_set_ne hne]
            exact hu a2 hna)
        refine ⟨h2, ?_, hu2⟩
        simp only [freeSlots, ptrAt, hp, ok_bind, Option.isSome_some, if_true, hfr]
        exact hrun

/-- What `operator=` produces when the target and the source are well-formed
objects with no block in common. -/
theorem assign_spec {h : Heap T} {B A : UndoArray} (hwB : WF h B) (hwA : WF h A)
    (hsep : Separate B A) :
    ∃ h1 B1, assign h B A = .ok (h1, B1) ∧ WF h1 A ∧ WF h1 B1 ∧ B1.m_size = A.m_size ∧
      (∀ i, history h1 A i = history h A i) ∧
      (∀ i, i < A.m_size →
        B1.historyLength i = A.historyLength i ∧ history h1 B1 i = history h A i) := by
  obtain ⟨hf, hrun, hu⟩ := freeSlots_spec hwB B.m_size 0 h (by omega)
    (fun j _ hj => (hwB.slot hj).2.2.2.2.1) (fun _ _ => rfl)
  have hunch : Unchanged h hf A := by
    intro i a hi
    exact hu a (fun j hj => hsep j i a hj hi)
  have hwA1 : WF hf A := hwA.of_unchanged hunch
  obtain ⟨l, B1, hcopy, hwB1, hsz, hhist, _⟩ := copySlots_spec hwA1
  refine ⟨hf ++ l, B1, ?_, hwA1.heap_append l, hwB1, hsz, ?_, ?_⟩
  · simp only [assign, hrun, ok_bind]
    exact hcopy
  · intro i
    rw [hwA1.history_append, history_of_unchanged hunch]
  · intro i hi
    obtain ⟨e1, e2⟩ := hhist i hi
    exact ⟨e1, by rw [e2, history_of_unchanged hunch]⟩

end UndoArray

namespace UndoArray

/-- A well-formed state of size 1 whose only slot records `n` values. -/
theorem WF_full_slot {T : Type} (n : Nat) (xs : List T) (hlen : xs.length = n)
    (hn : n < UINT_MOD) : WF ([⟨n, xs, true⟩] : Heap T) ⟨1, [n], [some 0]⟩ := by
  refine ⟨rfl, rfl, ?_, ?_⟩
  · intro i hi
    have hi0 : i = 0 := Nat.lt_one_iff.mp hi
    subst hi0
    exact ⟨n, rfl, hn, Or.inr ⟨0, ⟨n, xs, true⟩, rfl, rfl, rfl, Nat.le_of_eq hlen.symm⟩⟩
  · intro i j a hi hj
    have hi0 : i = 0 := Nat.lt_one_iff.mp (lt_of_getElem?_eq _ _ _ hi)
    have hj0 : j = 0 := Nat.lt_one_iff.mp (lt_of_getElem?_eq _ _ _ hj)
    rw [hi0, hj0]

/-- A small well-formed state: one slot holding the single value 7. -/
theorem WF_one_value : WF ([⟨1, [7], true⟩] : Heap Nat) ⟨1, [1], [some 0]⟩ := by
  refine ⟨rfl, rfl, ?_, ?_⟩
  · intro i hi
    have hi0 : i = 0 := Nat.lt_one_iff.mp hi
    subst hi0
    exact ⟨1, rfl, by unfold UINT_MOD; decide,
      Or.inr ⟨0, ⟨1, [7], true⟩, rfl, rfl, rfl, by decide⟩⟩
  · intro i j a hi hj
    have hi0 : i = 0 := Nat.lt_one_iff.mp (lt_of_getElem?_eq _ _ _ hi)
    have hj0 : j = 0 := Nat.lt_one_iff.mp (lt_of_getElem?_eq _ _ _ hj)
    rw [hi0, hj0]

/-- A small well-formed state of size 2: slot 0 holds the single value 7,
slot 1 is empty. -/
theorem WF_two_slots : WF ([⟨1, [7], true⟩] : Heap Nat) ⟨2, [1, 0], [some 0, none]⟩ := by
  refine ⟨rfl, rfl, ?_, ?_⟩
  · intro i hi
    have hi2 : i = 0 ∨ i = 1 := by
      have : i < 2 := hi
      omega
    rcases hi2 with rfl | rfl
    · exact ⟨1, rfl, by unfold UINT_MOD; decide,
        Or.inr ⟨0, ⟨1, [7], true⟩, rfl, rfl, rfl, by decide⟩⟩
    · exact ⟨0, rfl, by unfold UINT_MOD; decide, Or.inl ⟨rfl, rfl⟩⟩
  · intro i j a hi hj
    have hi2 : i = 0 ∨ i = 1 := by
      have : i < 2 := lt_of_getElem?_eq _ _ _ hi
      omega
    have hj2 : j = 0 ∨ j = 1 := by
      have : j < 2 := lt_of_getElem?_eq _ _ _ hj
      omega
    rcases hi2 with rfl | rfl
    · rcases hj2 with rfl | rfl
      · rfl
      · cases hj
    · cases hi

theorem separate_create_left (n : Nat) (d : UndoArray) : Separate (create n) d := by
  intro i j a hi _
  exact create_values_ne n i a hi

end UndoArray

namespace UndoArray

variable {T : Type}

end UndoArray

namespace UndoArray

variable {T : Type}

theorem getElem?_none_of_size {α : Type} (l : List α) (n i : Nat) (hl : l.length = n)
    (hi : n ≤ i) : l[i]? = none :=
  List.getElem?_eq_none (by omega)

/-- Outside the array `initialized` starts with the read `m_values[index]`. -/
theorem initialized_out_of_range {h : Heap T} {c : UndoArray} (hw : WF h c) {i : Nat}
    (hi : c.m_size ≤ i) : c.initialized i = .error .wildAccess := by
  have hp := getElem?_none_of_size c.m_values c.m_size i hw.2.1 hi
  simp only [initialized, ptrAt, hp, error_bind]

/-- Outside the array `get` starts with the read `m_values[index]`. -/
theorem get_out_of_range {h : Heap T} {c : UndoArray} (hw : WF h c) {i : Nat}
    (hi : c.m_size ≤ i) : get h c i = .error .wildAccess := by
  have hp := getElem?_none_of_size c.m_values c.m_size i hw.2.1 hi
  simp only [get, ptrAt, hp, error_bind]

/-- Outside the array `set` starts with the read `m_historySizes[index]`. -/
theorem set_out_of_range {h : Heap T} {c : UndoArray} (hw : WF h c) {i : Nat}
    (hi : c.m_size ≤ i) (v : T) : set h c i v = .error .wildAccess := by
  have hn := getElem?_none_of_size c.m_historySizes c.m_size i hw.1 hi
  simp only [set, setRealloc, sizeAt, hn, error_bind]

/-- Outside the array `undo` starts with the read `m_values[index]` of the
assertion. -/
theorem undo_out_of_range {h : Heap T} {c : UndoArray} (hw : WF h c) {i : Nat}
    (hi : c.m_size ≤ i) : undo h c i = .error .wildAccess := by
  have hp := getElem?_none_of_size c.m_values c.m_size i hw.2.1 hi
  simp only [undo, initialized, ptrAt, hp, error_bind]

/-- The call `undo` on a slot whose pointer is `NULL` stops at the assertion. -/
theorem undo_null (h : Heap T) (c : UndoArray) (i : Nat) (hp : c.m_values[i]? = some none) :
    undo h c i = .error .assertion := by
  simp only [undo, initialized, ptrAt, hp, ok_bind, pure, Except.pure, Option.isSome_none,
    Bool.false_eq_true, if_false]
  rfl

/-- The call `get` on a slot whose pointer is `NULL` dereferences it. -/
theorem get_null (h : Heap T) (c : UndoArray) (i n : Nat) (hp : c.m_values[i]? = some none)
    (hn : c.m_historySizes[i]? = some n) : get h c i = .error .nullPointer := by
  simp only [get, ptrAt, hp, lastOffset, sizeAt, hn, ok_bind, pure, Except.pure]
  rfl

theorem wrap_pred_max : (0 + UINT_MOD - 1) % UINT_MOD = 4294967295 := by
  unfold UINT_MOD
  rfl

/-- The call `get` on a slot that has a block but a recorded length of 0 reads
the cell at offset `UINT_MAX` of that block. -/
theorem get_zero (h : Heap T) (c : UndoArray) (i a : Nat)
    (hp : c.m_values[i]? = some (some a)) (hn : c.m_historySizes[i]? = some 0) :
    get h c i = h.load (some a) 4294967295 := by
  simp only [get, ptrAt, hp, lastOffset, sizeAt, hn, ok_bind, pure, Except.pure]
  rw [wrap_pred_max]

end UndoArray

namespace UndoArray

variable {T : Type}

theorem WF.block_lt {h : Heap T} {c : UndoArray} (hw : WF h c) {j a : Nat}
    (hj : c.m_values[j]? = some (some a)) : a < h.length := by
  have hjlt : j < c.m_size := by
    have := lt_of_getElem?_eq _ _ _ hj
    have := hw.2.1
    omega
  obtain ⟨n, _, _, hcase⟩ := hw.2.2.1 j hjlt
  rcases hcase with ⟨hp, _⟩ | ⟨a2, b, hp, hb, _, _⟩
  · rw [hp] at hj; cases hj
  · rw [hp] at hj
    cases hj
    exact Heap.lt_of_getElem? h _ b hb

/-- Frame of `undo` inside one object. -/
theorem undo_frame {h : Heap T} {c : UndoArray} (hw : WF h c) {i : Nat} (hi : i < c.m_size)
    {h1 : Heap T} {c1 : UndoArray} (hun : undo h c i = .ok (h1, c1)) (j : Nat)
    (hji : j ≠ i) :
    c1.historyLength j = c.historyLength j ∧ history h1 c1 j = history h c j := by
  have hpos := undo_ok_pos hw hi (h1, c1) hun
  rw [undo_wf hw hi hpos] at hun
  cases hun
  obtain ⟨e1, _, e3, _, _⟩ := hw.frame_replace i j hji
    [⟨c.historyLength i, history h c i, false⟩,
     ⟨c.historyLength i - 1, (history h c i).take (c.historyLength i - 1),
       decide (c.historyLength i ≠ 1)⟩]
    (if c.historyLength i = 1 then none else some (h.length + 1)) (c.historyLength i - 1)
  exact ⟨congrArg (fun o => Option.getD o 0) e1, e3⟩

/-- Replacing slot `i` of `B` leaves every block of an object `A` that shares
no block with `B` as it was, and the two stay separate. -/
theorem replace_other {h : Heap T} {A B : UndoArray} (hwA : WF h A) (hwB : WF h B)
    (hsep : Separate B A) {i : Nat} (hi : i < B.m_size) (l : Heap T) (p1 : Ptr) (n1 : Nat)
    (hp1 : p1 = none ∨ ∃ k, p1 = some (h.length + k)) :
    Unchanged h (h.release (B.slotPtr i) ++ l) A ∧
    Separate { B with m_values := B.m_values.set i p1,
                      m_historySizes := B.m_historySizes.set i n1 } A := by
  have hpB := (hwB.slot hi).2.1
  have hi2 := lt_of_getElem?_eq _ _ _ hpB
  constructor
  · intro j a hj
    refine Heap.getElem?_release_append h l _ a (hwA.block_lt hj) ?_
    intro e
    rw [e] at hpB
    exact hsep i j a hpB hj
  · intro j k a hj hk
    simp only at hj
    by_cases hji : j = i
    · rw [hji, List.getElem?_set_self hi2] at hj
      have := hwA.block_lt hk
      rcases hp1 with rfl | ⟨k1, rfl⟩
      · cases hj
      · cases hj
        omega
    · rw [List.getElem?_set_ne (Ne.symm hji)] at hj
      exact hsep j k a hj hk

theorem Separate.symm {A B : UndoArray} (hsep : Separate A B) : Separate B A :=
  fun i j a hi hj => hsep j i a hj hi

theorem Independent.swap {h : Heap T} {A B : UndoArray} (hind : Independent h A B) :
    Independent h B A :=
  ⟨hind.2.1, hind.1, hind.2.2.symm⟩

/-- A completed `undo` on `B` keeps an independent `A` independent and leaves
every history of `A` as it was. -/
theorem Independent.undo_right {h : Heap T} {A B : UndoArray} (hind : Independent h A B)
    (i : Nat) {h2 : Heap T} {B2 : UndoArray} (hun : undo h B i = .ok (h2, B2)) :
    Independent h2 A B2 ∧ ∀ j, history h2 A j = history h A j := by
  obtain ⟨hwA, hwB, hsep⟩ := hind
  by_cases hi : i < B.m_size
  · have hpos := undo_ok_pos hwB hi (h2, B2) hun
    obtain ⟨h3, B3, hun3, hw3, _, _, _, _⟩ := undo_step hwB hi hpos
    rw [hun] at hun3
    cases hun3
    rw [undo_wf hwB hi hpos] at hun
    cases hun
    obtain ⟨hunch, hsep2⟩ := replace_other hwA hwB hsep.symm hi
      [⟨B.historyLength i, history h B i, false⟩,
       ⟨B.historyLength i - 1, (history h B i).take (B.historyLength i - 1),
         decide (B.historyLength i ≠ 1)⟩]
      (if B.historyLength i = 1 then none else some (h.length + 1)) (B.historyLength i - 1)
      (by
        by_cases h1n : B.historyLength i = 1
        · exact Or.inl (by simp [h1n])
        · exact Or.inr ⟨1, by simp [h1n]⟩)
    exact ⟨⟨hwA.of_unchanged hunch, hw3, hsep2.symm⟩, fun j => history_of_unchanged hunch j⟩
  · rw [undo_out_of_range hwB (by omega)] at hun
    cases hun

/-- The copy constructor yields an object independent of its source, with the
source's recorded lengths and histories. -/
theorem copyCtor_independent {h : Heap T} {A : UndoArray} (hw : WF h A) :
    ∃ h1 B, copyCtor h A = .ok (h1, B) ∧ Independent h1 A B ∧ B.m_size = A.m_size ∧
      (∀ j, history h1 A j = history h A j) ∧
      (∀ j, j < A.m_size →
        B.historyLength j = A.historyLength j ∧ history h1 B j = history h A j) := by
  obtain ⟨l, B, hcopy, hwB, hsz, hhist, hfresh⟩ := copySlots_spec hw
  refine ⟨h ++ l, B, hcopy, ⟨hw.heap_append l, hwB, ?_⟩, hsz,
    fun j => hw.history_append l j, hhist⟩
  intro i j a hi hj
  have h1 := hw.block_lt hi
  have h2 := hfresh j a hj
  omega

/-- The assignment `B = A` of separate well-formed objects yields an object
independent of its source, with the source's recorded lengths and
histories. -/
theorem assign_independent {h : Heap T} {B A : UndoArray} (hwB : WF h B) (hwA : WF h A)
    (hsep : Separate B A) :
    ∃ h1 B1, assign h B A = .ok (h1, B1) ∧ Independent h1 A B1 ∧ B1.m_size = A.m_size ∧
      (∀ j, history h1 A j = history h A j) ∧
      (∀ j, j < A.m_size →
        B1.historyLength j = A.historyLength j ∧ history h1 B1 j = history h A j) := by
  obtain ⟨hf, hrun, hu⟩ := freeSlots_spec hwB B.m_size 0 h (by omega)
    (fun j _ hj => (hwB.slot hj).2.2.2.2.1) (fun _ _ => rfl)
  have hunch : Unchanged h hf A := by
    intro i a hi
    exact hu a (fun j hj => hsep j i a hj hi)
  have hwA1 : WF hf A := hwA.of_unchanged hunch
  obtain ⟨h1, B1, hcopy, hind, hsz, hA, hhist⟩ := copyCtor_independent hwA1
  refine ⟨h1, B1, ?_, hind, hsz, ?_, ?_⟩
  · simp only [assign, hrun, ok_bind]
    exact hcopy
  · intro j
    rw [hA, history_of_unchanged hunch]
  · intro j hj
    obtain ⟨e1, e2⟩ := hhist j hj
    exact ⟨e1, by rw [e2, history_of_unchanged hunch]⟩

end UndoArray

namespace UndoArray

variable {T : Type}

end UndoArray

namespace Heap

variable {T : Type}

theorem cellsDiffer_blocks_rel [BEq T] (h : Heap T) (p q : Nat) (bp bq : Block T)
    (hp : h[p]? = some bp) (hpl : bp.live = true) (hq : h[q]? = some bq)
    (hql : bq.live = true) :
    ∀ k j : Nat, j + k ≤ bp.cells.length → j + k ≤ bq.cells.length →
      ∃ r, cellsDiffer (some p) (some q) k j h = .ok r ∧
        (r = false ↔ List.Forall₂ (fun x y => (x == y) = true)
          ((bp.cells.drop j).take k) ((bq.cells.drop j).take k)) := by
  intro k
  induction k with
  | zero =>
    intro j _ _
    exact ⟨false, rfl, by simp⟩
  | succ k ih =>
    intro j hjp hjq
    have hjp1 : j < bp.cells.length := by omega
    have hjq1 : j < bq.cells.length := by omega
    have hx := load_eq h p j bp _ hp hpl (List.getElem?_eq_getElem hjp1)
    have hy := load_eq h q j bq _ hq hql (List.getElem?_eq_getElem hjq1)
    obtain ⟨r, hr, hiff⟩ := ih (j + 1) (by omega) (by omega)
    rw [List.drop_eq_getElem_cons hjp1, List.drop_eq_getElem_cons hjq1,
      List.take_succ_cons, List.take_succ_cons, List.forall₂_cons]
    by_cases hxy : (bp.cells[j] == bq.cells[j]) = true
    · refine ⟨r, ?_, ?_⟩
      · have hne : (bp.cells[j] != bq.cells[j]) = false := by simp [bne, hxy]
        simp only [cellsDiffer, hx, hy, UndoArray.ok_bind, hne, Bool.false_eq_true, if_false]
        exact hr
      · rw [hiff]
        simp [hxy]
    · refine ⟨true, ?_, ?_⟩
      · have hne : (bp.cells[j] != bq.cells[j]) = true := by
          simp only [Bool.not_eq_true] at hxy
          simp [bne, hxy]
        simp only [cellsDiffer, hx, hy, UndoArray.ok_bind, hne, if_true]
        rfl
      · simp [hxy]

/-- The inner loop of `isEqualTo` on two readable slots, for any `!=`: it
reports a difference exactly when some pair among the first `n` cells is
related by `!=`. -/
theorem cellsDiffer_readable_rel [BEq T] (h : Heap T) (p q : Ptr) (n : Nat)
    (hp : h.Readable p n) (hq : h.Readable q n) :
    ∃ r, cellsDiffer p q n 0 h = .ok r ∧
      (r = false ↔ List.Forall₂ (fun x y => (x == y) = true)
        ((h.cellsOf p).take n) ((h.cellsOf q).take n)) := by
  rcases hp with rfl | ⟨s, bs, rfl, hs, hsl, hsn⟩
  · exact ⟨false, rfl, by simp⟩
  · rcases hq with rfl | ⟨t, bt, rfl, ht, htl, htn⟩
    · exact ⟨false, rfl, by simp⟩
    · obtain ⟨r, hr, hiff⟩ := cellsDiffer_blocks_rel h s t bs bt hs hsl ht htl n 0
        (by omega) (by omega)
      refine ⟨r, hr, ?_⟩
      simpa [cellsOf, hs, ht] using hiff

end Heap

namespace UndoArray

variable {T : Type}

theorem slotsEqual_rel [BEq T] {h : Heap T} {a b : UndoArray}
    (hwa : WF h a) (hwb : WF h b) (hsz : a.m_size = b.m_size) :
    ∀ k i : Nat, i + k = a.m_size →
      ∃ r, slotsEqual a b k i h = .ok r ∧
        (r = true ↔ ∀ j, i ≤ j → j < a.m_size →
          a.historyLength j = b.historyLength j ∧
          List.Forall₂ (fun x y => (x == y) = true) (history h a j) (history h b j)) := by
  intro k
  induction k with
  | zero =>
    intro i hi
    refine ⟨true, rfl, ?_⟩
    simp only [true_iff]
    intro j h1 h2
    omega
  | succ k ih =>
    intro i hi
    have hia : i < a.m_size := by omega
    have hib : i < b.m_size := by omega
    obtain ⟨hna, hpa, _, hra, _, _⟩ := hwa.slot hia
    obtain ⟨hnb, hpb, _, hrb, _, _⟩ := hwb.slot hib
    obtain ⟨r, hr, hiff⟩ := ih (i + 1) (by omega)
    by_cases hlen : a.historyLength i = b.historyLength i
    · rw [← hlen] at hrb
      obtain ⟨d, hd, hdiff⟩ := Heap.cellsDiffer_readable_rel h _ _ _ hra hrb
      cases d with
      | false =>
        refine ⟨r, ?_, ?_⟩
        · simp only [slotsEqual, sizeAt, ptrAt, hna, hnb, hpa, hpb, ok_bind, hlen, ne_eq,
            not_true_eq_false, if_false]
          rw [← hlen, hd, ok_bind]
          simpa using hr
        · rw [hiff]
          constructor
          · intro hall j h1 h2
            by_cases hji : j = i
            · subst hji
              refine ⟨hlen, ?_⟩
              simp only [history, ← hlen]
              exact hdiff.mp rfl
            · exact hall j (by omega) h2
          · intro hall j h1 h2
            exact hall j (by omega) h2
      | true =>
        refine ⟨false, ?_, ?_⟩
        · simp only [slotsEqual, sizeAt, ptrAt, hna, hnb, hpa, hpb, ok_bind, hlen, ne_eq,
            not_true_eq_false, if_false]
          rw [← hlen, hd, ok_bind]
          simp only [if_true]
          rfl
        · simp only [Bool.false_eq_true, false_iff]
          intro hall
          obtain ⟨_, hh⟩ := hall i (Nat.le_refl i) hia
          simp only [history, ← hlen] at hh
          have := hdiff.mpr hh
          cases this
    · refine ⟨false, ?_, ?_⟩
      · simp only [slotsEqual, sizeAt, hna, hnb, ok_bind, ne_eq, hlen, not_false_eq_true,
          if_true]
        rfl
      · simp only [Bool.false_eq_true, false_iff]
        intro hall
        exact hlen (hall i (Nat.le_refl i) hia).1

/-- What `isEqualTo` computes on two well-formed objects of one heap, for any
`!=` on the elements: true exactly when the sizes agree and, slot by slot,
the recorded lengths agree and no pair of corresponding values is related by
`!=`. -/
theorem isEqualTo_rel [BEq T] {h : Heap T} {a b : UndoArray} (hwa : WF h a) (hwb : WF h b) :
    ∃ r, isEqualTo h a b = .ok r ∧
      (r = true ↔ (a.m_size = b.m_size ∧ ∀ i, i < a.m_size →
        a.historyLength i = b.historyLength i ∧
        List.Forall₂ (fun x y => (x == y) = true) (history h a i) (history h b i))) := by
  by_cases hsz : a.m_size = b.m_size
  · obtain ⟨r, hr, hiff⟩ := slotsEqual_rel hwa hwb hsz a.m_size 0 (by omega)
    refine ⟨r, ?_, ?_⟩
    · simp only [isEqualTo, hsz, ne_eq, not_true_eq_false, if_false]
      rw [← hsz]
      exact hr
    · rw [hiff]
      constructor
      · intro hall
        exact ⟨hsz, fun i hi => hall i (Nat.zero_le i) hi⟩
      · intro hall j _ hj
        exact hall.2 j hj
  · refine ⟨false, ?_, ?_⟩
    · simp only [isEqualTo, ne_eq, hsz, not_false_eq_true, if_true]
    · simp only [Bool.false_eq_true, false_iff]
      intro hall
      exact hsz hall.1

theorem forall2_beq_refl [BEq T] [ReflBEq T] (l : List T) :
    List.Forall₂ (fun x y => (x == y) = true) l l := by
  induction l with
  | nil => exact List.Forall₂.nil
  | cons x xs ih => exact List.Forall₂.cons BEq.refl ih

theorem forall2_beq_symm [BEq T] [EquivBEq T] {l1 l2 : List T}
    (hrel : List.Forall₂ (fun x y => (x == y) = true) l1 l2) :
    List.Forall₂ (fun x y => (x == y) = true) l2 l1 := by
  induction hrel with
  | nil => exact List.Forall₂.nil
  | cons hxy _ ih => exact List.Forall₂.cons (BEq.symm hxy) ih

theorem forall2_beq_trans [BEq T] [EquivBEq T] {l1 l2 : List T}
    (h12 : List.Forall₂ (fun x y => (x == y) = true) l1 l2) :
    ∀ {l3 : List T}, List.Forall₂ (fun x y => (x == y) = true) l2 l3 →
      List.Forall₂ (fun x y => (x == y) = true) l1 l3 := by
  induction h12 with
  | nil =>
    intro l3 h23
    cases h23
    exact List.Forall₂.nil
  | cons hxy _ ih =>
    intro l3 h23
    cases h23 with
    | cons hyz hrest => exact List.Forall₂.cons (BEq.trans hxy hyz) (ih hrest)

end UndoArray

namespace UndoArray

variable {T : Type}

theorem printSizes_eq {h : Heap T} {c : UndoArray} (hw : WF h c) :
    ∀ (k i : Nat) (out : List Nat) (mx : Nat), i + k = c.m_size →
      printSizes c k i out mx =
        .ok (out ++ (List.range' i k).map c.historyLength,
             (List.range' i k).foldl
               (fun m j => if c.historyLength j > m then c.historyLength j else m) mx) := by
  intro k
  induction k with
  | zero =>
    intro i out mx _
    simp [printSizes]
  | succ k ih =>
    intro i out mx hi
    have hn := (hw.slot (show i < c.m_size by omega)).1
    simp only [printSizes, sizeAt, hn, ok_bind]
    rw [ih (i + 1) _ _ (by omega)]
    simp [List.range'_succ]

theorem printMarks_eq {h : Heap T} {c : UndoArray} (hw : WF h c) :
    ∀ (k i : Nat) (out : List Bool), i + k = c.m_size →
      printMarks c k i out =
        .ok (out ++ (List.range' i k).map
          (fun j => if c.historyLength j = 0 then false else true)) := by
  intro k
  induction k with
  | zero =>
    intro i out _
    simp [printMarks]
  | succ k ih =>
    intro i out hi
    have hn := (hw.slot (show i < c.m_size by omega)).1
    simp only [printMarks, sizeAt, hn, ok_bind]
    rw [ih (i + 1) _ (by omega)]
    simp [List.range'_succ]

/-- Reading a cell below the recorded length of a well-formed slot gives the
value at that place of the history. -/
theorem load_history {h : Heap T} {c : UndoArray} (hw : WF h c) {j : Nat} (hj : j < c.m_size)
    {d : Nat} (hd : d < c.historyLength j) :
    ∃ x, (history h c j)[d]? = some x ∧ h.load (c.slotPtr j) d = .ok x := by
  obtain ⟨_, _, hs, _⟩ := hw
  obtain ⟨n, hn, _, hcase⟩ := hs j hj
  have hlen := historyLength_eq c j n hn
  rw [hlen] at hd
  rcases hcase with ⟨_, h0⟩ | ⟨a, b, hp, hb, hl, hm⟩
  · omega
  · have hx : b.cells[d]? = some (b.cells[d]) := List.getElem?_eq_getElem (by omega)
    refine ⟨b.cells[d], ?_, ?_⟩
    · simp only [history, slotPtr_eq c j _ hp, hlen, Heap.cellsOf, hb]
      rw [List.getElem?_take_of_lt hd]
      exact hx
    · rw [slotPtr_eq c j _ hp]
      exact Heap.load_eq h a d b _ hb hl hx

theorem printRow_eq {h : Heap T} {c : UndoArray} (hw : WF h c) (d : Nat) :
    ∀ (k j : Nat) (out : List (Option T)), j + k = c.m_size →
      printRow h c d k j out = .ok (out ++ (List.range' j k).map (gridCell h c d)) := by
  intro k
  induction k with
  | zero =>
    intro j out _
    simp [printRow]
  | succ k ih =>
    intro j out hj
    have hjlt : j < c.m_size := by omega
    obtain ⟨hn, hp, _, _, _, _⟩ := hw.slot hjlt
    by_cases hd : d < c.historyLength j
    · obtain ⟨x, hx, hload⟩ := load_history hw hjlt hd
      have hgt : c.historyLength j > d := hd
      simp only [printRow, sizeAt, ptrAt, hn, hp, ok_bind, hgt, if_true, hload]
      rw [ih (j + 1) _ (by omega)]
      simp [List.range'_succ, gridCell, hd, hx]
    · have hgt : ¬ c.historyLength j > d := hd
      simp only [printRow, sizeAt, hn, ok_bind, hgt, if_false]
      rw [ih (j + 1) _ (by omega)]
      simp [List.range'_succ, gridCell, hd]

theorem printRows_eq {h : Heap T} {c : UndoArray} (hw : WF h c) :
    ∀ (k i : Nat) (out : List (List (Option T))),
      printRows h c k i out =
        .ok (out ++ (List.range' i k).map
          (fun d => (List.range' 0 c.m_size).map (gridCell h c d))) := by
  intro k
  induction k with
  | zero =>
    intro i out
    simp [printRows]
  | succ k ih =>
    intro i out
    simp only [printRows, printRow_eq hw i c.m_size 0 [] (by omega), ok_bind]
    rw [ih (i + 1)]
    simp [List.range'_succ]

/-- The value that the first loop of `print` leaves in `max_history` is the
maximum of its start value and the recorded lengths it has seen. -/
theorem maxLoop_spec (f : Nat → Nat) :
    ∀ (l : List Nat) (mx : Nat),
      mx ≤ l.foldl (fun m j => if f j > m then f j else m) mx ∧
      (∀ j, j ∈ l → f j ≤ l.foldl (fun m j => if f j > m then f j else m) mx) ∧
      (l.foldl (fun m j => if f j > m then f j else m) mx = mx ∨
        ∃ j, j ∈ l ∧ f j = l.foldl (fun m j => if f j > m then f j else m) mx) := by
  intro l
  induction l with
  | nil =>
    intro mx
    simp
  | cons a l ih =>
    intro mx
    by_cases hgt : f a > mx
    · have e : (if f a > mx then f a else mx) = f a := by simp [hgt]
      obtain ⟨h1, h2, h3⟩ := ih (f a)
      simp only [List.foldl_cons, e]
      refine ⟨by omega, ?_, ?_⟩
      · intro j hj
        rcases List.mem_cons.mp hj with rfl | hj
        · exact h1
        · exact h2 j hj
      · right
        rcases h3 with h3 | ⟨j, hj, hfj⟩
        · exact ⟨a, List.mem_cons_self a l, h3.symm⟩
        · exact ⟨j, List.mem_cons_of_mem a hj, hfj⟩
    · have e : (if f a > mx then f a else mx) = mx := by simp [hgt]
      obtain ⟨h1, h2, h3⟩ := ih mx
      simp only [List.foldl_cons, e]
      refine ⟨h1, ?_, ?_⟩
      · intro j hj
        rcases List.mem_cons.mp hj with rfl | hj
        · omega
        · exact h2 j hj
      · rcases h3 with h3 | ⟨j, hj, hfj⟩
        · exact Or.inl h3
        · exact Or.inr ⟨j, List.mem_cons_of_mem a hj, hfj⟩

end UndoArray

namespace UndoArray

variable {T : Type}

/-- Closed form of `print` on a well-formed object. -/
theorem print_eq {h : Heap T} {c : UndoArray} (hw : WF h c) :
    print h c =
      .ok ⟨c.m_size, (List.range c.m_size).map c.historyLength,
        (List.range c.m_size).map (fun j => if c.historyLength j = 0 then false else true),
        (List.range ((List.range c.m_size).foldl
            (fun m j => if c.historyLength j > m then c.historyLength j else m) 0)).map
          (fun d => (List.range c.m_size).map (gridCell h c d))⟩ := by
  simp only [print, printSizes_eq hw c.m_size 0 [] 0 (by omega),
    printMarks_eq hw c.m_size 0 [] (by omega), printRows_eq hw, ok_bind, pure, Except.pure,
    List.nil_append, ← List.range_eq_range']

end UndoArray

namespace Run

variable {T α β : Type}

theorem run_bind (m : Run T α) (g : α → Run T β) (s : Heap T × UndoArray) :
    (m >>= g) s = andThen m g s := rfl

theorem run_pure (a : α) (s : Heap T × UndoArray) :
    (pure a : Run T α) s = .completed a s := rfl

theorem outcome_ofObject (f : UndoArray → Except Fault α) (g : α → Run T β)
    (h : Heap T) (c : UndoArray) :
    outcome ((ofObject f >>= g) (h, c)) = f c >>= fun a => outcome (g a (h, c)) := by
  simp only [run_bind, andThen, ofObject]
  cases f c <;> rfl

theorem outcome_onObject (f : UndoArray → Except Fault UndoArray) (g : Unit → Run T β)
    (h : Heap T) (c : UndoArray) :
    outcome ((onObject f >>= g) (h, c)) = f c >>= fun c1 => outcome (g () (h, c1)) := by
  simp only [run_bind, andThen, onObject]
  cases f c <;> rfl

theorem outcome_onHeap (f : Heap T → Except Fault (Heap T)) (g : Unit → Run T β)
    (h : Heap T) (c : UndoArray) :
    outcome ((onHeap f >>= g) (h, c)) = f h >>= fun h1 => outcome (g () (h1, c)) := by
  simp only [run_bind, andThen, onHeap]
  cases f h <;> rfl

theorem outcome_alloc (n : Nat) (g : Ptr → Run T β) (h : Heap T) (c : UndoArray) :
    outcome ((alloc n >>= g) (h, c)) = outcome (g (h.alloc n).2 ((h.alloc n).1, c)) := rfl

theorem outcome_onObject_last (f : UndoArray → Except Fault UndoArray)
    (h : Heap T) (c : UndoArray) :
    outcome ((onObject f : Run T Unit) (h, c)) = f c >>= fun c1 => .ok (h, c1) := by
  simp only [onObject]
  cases f c <;> rfl

theorem outcome_onHeap_last (f : Heap T → Except Fault (Heap T))
    (h : Heap T) (c : UndoArray) :
    outcome ((onHeap f : Run T Unit) (h, c)) = f h >>= fun h1 => .ok (h1, c) := by
  simp only [onHeap]
  cases f h <;> rfl

theorem outcome_pure (a : α) (s : Heap T × UndoArray) :
    outcome ((pure a : Run T α) s) = .ok s := rfl

theorem outcome_ite (b : Prop) [Decidable b] (x y : Run T α) (s : Heap T × UndoArray) :
    outcome ((if b then x else y) s) = if b then outcome (x s) else outcome (y s) := by
  split <;> rfl

theorem outcome_assertFailed (s : Heap T × UndoArray) :
    outcome ((assertFailed : Run T α) s) = .error .assertion := rfl

end Run

namespace UndoArray

variable {T : Type}

/-- The copy loop as a run either completes with the heap `Heap.copyCells`
returns, or ends in the undefined access `Heap.copyCells` reports. -/
theorem copyCellsRun_eq (src dst : Ptr) (k i : Nat) (h : Heap T) (c : UndoArray) :
    (∃ h1, Heap.copyCells src dst k i h = .ok h1 ∧
        copyCellsRun src dst k i (h, c) = .completed () (h1, c)) ∨
    (∃ e, Heap.copyCells src dst k i h = .error e ∧
        copyCellsRun src dst k i (h, c) = .undefined e) := by
  induction k generalizing i h with
  | zero => exact Or.inl ⟨h, rfl, rfl⟩
  | succ k ih =>
    cases hx : h.load src i with
    | error e =>
      refine Or.inr ⟨e, Heap.copyCells_load_error src dst k i h e hx, ?_⟩
      simp only [copyCellsRun, Run.run_bind, Run.andThen, Run.ofHeap, hx]
    | ok x =>
      cases hs : h.store dst i x with
      | error e =>
        refine Or.inr ⟨e, ?_, ?_⟩
        · simp only [Heap.copyCells, hx, hs, ok_bind, error_bind]
        · simp only [copyCellsRun, Run.run_bind, Run.andThen, Run.ofHeap, Run.onHeap, hx, hs]
      | ok h1 =>
        have e1 : Heap.copyCells src dst (k + 1) i h = Heap.copyCells src dst k (i + 1) h1 := by
          simp only [Heap.copyCells, hx, hs, ok_bind]
        have e2 : copyCellsRun src dst (k + 1) i (h, c) =
            copyCellsRun src dst k (i + 1) (h1, c) := by
          simp only [copyCellsRun, Run.run_bind, Run.andThen, Run.ofHeap, Run.onHeap, hx, hs]
        rw [e1, e2]
        exact ih (i + 1) h1

theorem outcome_copyCellsRun {β : Type} (src dst : Ptr) (k i : Nat) (g : Unit → Run T β)
    (h : Heap T) (c : UndoArray) :
    Run.outcome ((copyCellsRun src dst k i >>= g) (h, c)) =
      Heap.copyCells src dst k i h >>= fun h1 => Run.outcome (g () (h1, c)) := by
  rcases copyCellsRun_eq src dst k i h c with ⟨h1, e1, e2⟩ | ⟨e, e1, e2⟩
  · rw [e1, Run.run_bind, Run.andThen, e2]
    rfl
  · rw [e1, Run.run_bind, Run.andThen, e2]
    rfl

/-- The run of `set` and the function `set` agree: same fault, or same final
state. -/
theorem setRun_outcome (h : Heap T) (c : UndoArray) (i : Nat) (v : T) :
    Run.outcome (setRun i v (h, c)) = set h c i v := by
  simp only [setRun, Run.outcome_ofObject, Run.outcome_alloc, outcome_copyCellsRun,
    Run.outcome_onHeap, Run.outcome_onObject, Run.outcome_onHeap_last]
  simp only [set, setRealloc, bind_assoc, pure_bind]
  rfl

/-- The run of `undo` and the function `undo` agree: same fault, or same
final state. -/
theorem undoRun_outcome (h : Heap T) (c : UndoArray) (i : Nat) :
    Run.outcome (undoRun i (h, c)) = undo h c i := by
  simp only [undoRun, Run.outcome_ofObject, Run.outcome_alloc, outcome_copyCellsRun,
    Run.outcome_onHeap, Run.outcome_onObject, Run.outcome_onObject_last, Run.outcome_ite,
    Run.outcome_pure, Run.outcome_assertFailed]
  simp only [undo]
  rfl

theorem outcome_of_asserted {α : Type} (r : Ending T α) (s : Heap T × UndoArray)
    (hr : r = .asserted s) : Run.outcome r = .error .assertion := by
  rw [hr]
  rfl

/-- Outside the array the run of `set` begins with an undefined read. -/
theorem setRun_out_of_range (h : Heap T) (c : UndoArray) (i : Nat) (v : T)
    (hn : c.m_historySizes[i]? = none) :
    setRun i v (h, c) = .undefined .wildAccess := by
  simp only [setRun, Run.run_bind, Run.andThen, Run.ofObject, sizeAt, hn]

/-- Outside the array the run of `undo` begins with an undefined read, the one
of its assertion. -/
theorem undoRun_out_of_range (h : Heap T) (c : UndoArray) (i : Nat)
    (hp : c.m_values[i]? = none) :
    (undoRun i : Run T Unit) (h, c) = .undefined .wildAccess := by
  simp only [undoRun, Run.run_bind, Run.andThen, Run.ofObject, initialized, ptrAt, hp,
    error_bind]

/-- On a slot whose pointer is `NULL` the run of `undo` stops at the assertion,
with the state untouched. -/
theorem undoRun_null (h : Heap T) (c : UndoArray) (i : Nat) (hp : c.m_values[i]? = some none) :
    (undoRun i : Run T Unit) (h, c) = .asserted (h, c) := by
  simp only [undoRun, Run.run_bind, Run.andThen, Run.ofObject, initialized, ptrAt, hp,
    ok_bind, pure, Except.pure, Option.isSome_none, Bool.false_eq_true, if_false,
    Run.assertFailed]

/-- On a well-formed object no assertion stops the run of `set`: there is none
in it. -/
theorem setRun_not_asserted {h : Heap T} {c : UndoArray} (hw : WF h c) (i : Nat) (v : T)
    (s : Heap T × UndoArray) : setRun i v (h, c) ≠ .asserted s := by
  intro hs
  have h1 := outcome_of_asserted _ s hs
  rw [setRun_outcome] at h1
  by_cases hi : i < c.m_size
  · rw [set_wf hw hi v] at h1
    cases h1
  · rw [set_out_of_range hw (by omega) v] at h1
    cases h1

/-- On a well-formed object the run of `undo` stops at the assertion exactly
on a slot whose pointer is `NULL`, and then in the state it started from. -/
theorem undoRun_asserted {h : Heap T} {c : UndoArray} (hw : WF h c) (i : Nat)
    (s : Heap T × UndoArray) (hs : (undoRun i : Run T Unit) (h, c) = .asserted s) :
    c.m_values[i]? = some none ∧ s = (h, c) := by
  have h1 := outcome_of_asserted _ s hs
  rw [undoRun_outcome] at h1
  by_cases hi : i < c.m_size
  · obtain ⟨n, hn, _, hcase⟩ := hw.2.2.1 i hi
    rcases hcase with ⟨hp, _⟩ | ⟨a, b, hp, hb, hl, hm⟩
    · rw [undoRun_null h c i hp] at hs
      cases hs
      exact ⟨hp, rfl⟩
    · exfalso
      by_cases h0 : n = 0
      · rw [undo_eq_zero h c i n a b hn h0 hp hb hl] at h1
        cases h1
      · have hlen := historyLength_eq c i n hn
        rw [undo_wf hw hi (by omega)] at h1
        cases h1
  · exfalso
    rw [undo_out_of_range hw (by omega)] at h1
    cases h1

end UndoArray

namespace Heap

variable {T : Type}

theorem bounded_nil : Bounded ([] : Heap T) := by
  intro a b hb
  simp at hb

theorem alloc_bounded (h : Heap T) (n : Nat) (hb : h.Bounded) : (h.alloc n).1.Bounded := by
  intro a b hab
  simp only [alloc] at hab
  by_cases ha : a < h.length
  · rw [List.getElem?_append_left ha] at hab
    exact hb a b hab
  · rw [List.getElem?_append_right (by omega)] at hab
    cases hk : a - h.length with
    | zero =>
      rw [hk] at hab
      simp at hab
      rw [← hab]
      exact Nat.zero_le n
    | succ k =>
      rw [hk] at hab
      simp at hab

theorem release_bounded (h : Heap T) (p : Ptr) (hb : h.Bounded) : (h.release p).Bounded := by
  cases p with
  | none => exact hb
  | some s =>
    simp only [release]
    cases hs : h[s]? with
    | none => exact hb
    | some bs =>
      intro a b hab
      simp only at hab
      by_cases has : s = a
      · subst has
        rw [List.getElem?_set_self (lt_of_getElem? h s bs hs)] at hab
        cases hab
        exact hb s bs hs
      · rw [List.getElem?_set_ne has] at hab
        exact hb a b hab

theorem store_bounded (h h1 : Heap T) (p : Ptr) (i : Nat) (x : T) (hb : h.Bounded)
    (hs : h.store p i x = .ok h1) : h1.Bounded := by
  cases p with
  | none => cases hs
  | some s =>
    simp only [store] at hs
    cases hbs : h[s]? with
    | none =>
      rw [hbs] at hs
      cases hs
    | some bs =>
      rw [hbs] at hs
      simp only at hs
      by_cases hl : bs.live = true
      · by_cases hc : i < bs.cap
        · simp only [hl, hc, if_true] at hs
          have hlen := hb s bs hbs
          have key : ∀ cs, storeAt bs.cells i x = .ok cs → cs.length ≤ bs.cap := by
            intro cs hcs
            unfold storeAt at hcs
            split at hcs
            · cases hcs
              simpa using hlen
            · split at hcs
              · cases hcs
                simp
                omega
              · cases hcs
          cases hst : storeAt bs.cells i x with
          | error e =>
            rw [hst] at hs
            cases hs
          | ok cs =>
            rw [hst] at hs
            cases hs
            intro a b hab
            by_cases has : s = a
            · subst has
              rw [List.getElem?_set_self (lt_of_getElem? h s bs hbs)] at hab
              cases hab
              exact key cs hst
            · rw [List.getElem?_set_ne has] at hab
              exact hb a b hab
        · simp only [hl, hc, if_true, if_false] at hs
          cases hs
      · simp only [hl, if_false] at hs
        cases hs

end Heap

namespace UndoArray

variable {T : Type}

/-- A sequence of at least one `set` on a slot of a well-formed object ends in
the undefined store of its first call. -/
theorem setAll_undefined {h : Heap T} {c : UndoArray} (hw : WF h c) {i : Nat}
    (hi : i < c.m_size) (vs : List T) (hne : vs ≠ []) :
    setAll i vs h c = .error .wildAccess := by
  cases vs with
  | nil => exact absurd rfl hne
  | cons v rest => rw [setAll, set_wf hw hi v, error_bind]

/-- A small well-formed state of size 2 in which both slots hold one value. -/
theorem WF_two_values :
    WF ([⟨1, [7], true⟩, ⟨1, [8], true⟩] : Heap Nat) ⟨2, [1, 1], [some 0, some 1]⟩ := by
  refine ⟨rfl, rfl, ?_, ?_⟩
  · intro i hi
    have hi2 : i = 0 ∨ i = 1 := by
      have : i < 2 := hi
      omega
    rcases hi2 with rfl | rfl
    · exact ⟨1, rfl, by unfold UINT_MOD; decide,
        Or.inr ⟨0, ⟨1, [7], true⟩, rfl, rfl, rfl, by decide⟩⟩
    · exact ⟨1, rfl, by unfold UINT_MOD; decide,
        Or.inr ⟨1, ⟨1, [8], true⟩, rfl, rfl, rfl, by decide⟩⟩
  · intro i j a hi hj
    have hi2 : i = 0 ∨ i = 1 := by
      have : i < 2 := lt_of_getElem?_eq _ _ _ hi
      omega
    have hj2 : j = 0 ∨ j = 1 := by
      have : j < 2 := lt_of_getElem?_eq _ _ _ hj
      omega
    rcases hi2 with rfl | rfl
    · rcases hj2 with rfl | rfl
      · rfl
      · cases hi
        cases hj
    · rcases hj2 with rfl | rfl
      · cases hi
        cases hj
      · rfl

end UndoArray

namespace UndoArray

/-- A heap of two blocks, seen from an object of size 1 whose slot is the
first block. -/
theorem WF_first_of_two :
    WF ([⟨1, [7], true⟩, ⟨1, [8], true⟩] : Heap Nat) ⟨1, [1], [some 0]⟩ :=
  WF_one_value.heap_append [⟨1, [8], true⟩]

/-- The same heap, seen from an object of size 1 whose slot is the second
block. -/
theorem WF_second_of_two :
    WF ([⟨1, [7], true⟩, ⟨1, [8], true⟩] : Heap Nat) ⟨1, [1], [some 1]⟩ := by
  refine ⟨rfl, rfl, ?_, ?_⟩
  · intro i hi
    have hi0 : i = 0 := Nat.lt_one_iff.mp hi
    subst hi0
    exact ⟨1, rfl, by unfold UINT_MOD; decide,
      Or.inr ⟨1, ⟨1, [8], true⟩, rfl, rfl, rfl, by decide⟩⟩
  · intro i j a hi hj
    have hi0 : i = 0 := Nat.lt_one_iff.mp (lt_of_getElem?_eq _ _ _ hi)
    have hj0 : j = 0 := Nat.lt_one_iff.mp (lt_of_getElem?_eq _ _ _ hj)
    rw [hi0, hj0]

theorem separate_second_first :
    Separate (⟨1, [1], [some 1]⟩ : UndoArray) ⟨1, [1], [some 0]⟩ := by
  intro i j a hi hj
  have hi0 : i = 0 := Nat.lt_one_iff.mp (lt_of_getElem?_eq _ _ _ hi)
  have hj0 : j = 0 := Nat.lt_one_iff.mp (lt_of_getElem?_eq _ _ _ hj)
  subst hi0
  subst hj0
  cases hi
  cases hj

/-- A small well-formed state over `FloatLike`: one slot that holds a
not-a-number. -/
theorem WF_nan_slot :
    WF ([⟨1, [FloatLike.nan], true⟩] : Heap FloatLike) ⟨1, [1], [some 0]⟩ :=
  WF_full_slot 1 [FloatLike.nan] rfl (by unfold UINT_MOD; decide)

end UndoArray

/-! ## The claims -/

open UndoArray

/-- C4, as the code behaves: on every well-formed container the block that
`set` allocates for the slot has exactly the old history length as its
requested length, and the final store goes to the offset equal to that
length, which is not inside the block. -/
theorem set_store_past_block {T : Type} (h : Heap T) (c : UndoArray) (index : Nat)
    (hw : WF h c) (hi : index < c.m_size) :
    ∃ h1 c1 a b off, setRealloc h c index = .ok (h1, c1) ∧
      c1.ptrAt index = .ok (some a) ∧ h1[a]? = some b ∧
      b.cap = c.historyLength index ∧
      c1.lastOffset index = .ok off ∧ off = c.historyLength index ∧
      h1.inBounds (some a) off = false := by
  obtain ⟨hn, hp, hlt, hr, hf, _⟩ := hw.slot hi
  have hi1 := lt_of_getElem?_eq _ _ _ hn
  have hi2 := lt_of_getElem?_eq _ _ _ hp
  have hb : (h.release (c.slotPtr index) ++
      [(⟨c.historyLength index, (h.cellsOf (c.slotPtr index)).take (c.historyLength index),
          false⟩ : Block T),
       ⟨c.historyLength index, (h.cellsOf (c.slotPtr index)).take (c.historyLength index),
          true⟩])[h.length + 1]? =
      some ⟨c.historyLength index,
        (h.cellsOf (c.slotPtr index)).take (c.historyLength index), true⟩ := by
    rw [Heap.getElem?_release_append_right]
    rfl
  refine ⟨_, _, h.length + 1, _, c.historyLength index,
    setRealloc_eq h c index _ _ hn hp hr hf, ?_, hb, rfl, ?_, rfl, ?_⟩
  · simp only [ptrAt, List.getElem?_set_self hi2]
  · simp only [lastOffset, sizeAt, List.getElem?_set_self hi1, ok_bind, pure, Except.pure]
    rw [wrap_succ_pred _ hlt]
  · simp only [Heap.inBounds, hb]
    simp

/-- Witness of C4: the first `set` on a fresh container of size 1 allocates
`new T[0]` and stores at offset 0. -/
theorem set_store_past_block_witness :
    ∃ h1 c1 a b off, setRealloc ([] : Heap Nat) (create 1) 0 = .ok (h1, c1) ∧
      c1.ptrAt 0 = .ok (some a) ∧ h1[a]? = some b ∧
      b.cap = (create 1).historyLength 0 ∧
      c1.lastOffset 0 = .ok off ∧ off = (create 1).historyLength 0 ∧
      h1.inBounds (some a) off = false :=
  set_store_past_block ([] : Heap Nat) (create 1) 0 (WF_create _ _) (by decide)

/-- C6: for every size `N` and every index below `N`, the container created
with size `N` has size `N`, reports `initialized(index) == false`, and its
slot `index` has recorded length 0 and an empty history. -/
theorem create_uninitialized {T : Type} (h : Heap T) (N index : Nat) (hi : index < N) :
    (create N).m_size = N ∧
      (create N).initialized index = .ok false ∧
      (create N).m_historySizes[index]? = some 0 ∧
      history h (create N) index = [] := by
  refine ⟨create_size N, ?_, create_sizes N index hi, history_create h N index⟩
  rw [initialized_eq _ index none (create_values N index hi)]
  rfl

/-- Witness of C6: slot 6 of a container of size 7. -/
theorem create_uninitialized_witness :
    (create 7).m_size = 7 ∧
      (create 7).initialized 6 = .ok false ∧
      (create 7).m_historySizes[6]? = some 0 ∧
      history ([] : Heap Nat) (create 7) 6 = [] :=
  create_uninitialized ([] : Heap Nat) 7 6 (by decide)

/-- C5, as the code behaves: the copy of a fresh container of size 1 has an
empty history at slot 0 (recorded length 0) and yet reports
`initialized(0) == true`, because the copy constructor stores the non-null
result of `new T[0]` in the slot. -/
theorem copy_empty_slot_initialized :
    ∃ h1 c1, copyCtor ([] : Heap Nat) (create 1) = .ok (h1, c1) ∧
      c1.m_historySizes[0]? = some 0 ∧ history h1 c1 0 = [] ∧
      c1.initialized 0 = .ok true :=
  ⟨_, _, rfl, rfl, rfl, rfl⟩

/-- C8, as amended: for an element type whose `!=` is the negation of
equality, and two well-formed containers of one heap, `isEqualTo` completes,
and it returns true if and only if the sizes are equal and every slot has the
same history length and the same history, element by element; in particular
it returns false as soon as the history lengths differ at some slot. -/
theorem isEqualTo_iff_histories {T : Type} [BEq T] [LawfulBEq T] (h : Heap T)
    (a b : UndoArray) (hwa : WF h a) (hwb : WF h b) :
    ∃ r, isEqualTo h a b = .ok r ∧
      (r = true ↔ (a.m_size = b.m_size ∧ ∀ i, i < a.m_size →
        a.historyLength i = b.historyLength i ∧ history h a i = history h b i)) ∧
      ((∃ i, i < a.m_size ∧ a.historyLength i ≠ b.historyLength i) → r = false) := by
  obtain ⟨r, hr, hiff⟩ := isEqualTo_spec hwa hwb
  refine ⟨r, hr, hiff, ?_⟩
  rintro ⟨i, hi, hne⟩
  cases r with
  | false => rfl
  | true => exact absurd ((hiff.mp rfl).2 i hi).1 hne

/-- Witness of C8: a container holding one value against a fresh one of the
same size. -/
theorem isEqualTo_iff_histories_witness :
    ∃ r, isEqualTo ([⟨1, [7], true⟩] : Heap Nat) ⟨1, [1], [some 0]⟩ (create 1) = .ok r ∧
      (r = true ↔ ((⟨1, [1], [some 0]⟩ : UndoArray).m_size = (create 1).m_size ∧
        ∀ i, i < (⟨1, [1], [some 0]⟩ : UndoArray).m_size →
          (⟨1, [1], [some 0]⟩ : UndoArray).historyLength i = (create 1).historyLength i ∧
          history ([⟨1, [7], true⟩] : Heap Nat) ⟨1, [1], [some 0]⟩ i =
            history ([⟨1, [7], true⟩] : Heap Nat) (create 1) i)) ∧
      ((∃ i, i < (⟨1, [1], [some 0]⟩ : UndoArray).m_size ∧
        (⟨1, [1], [some 0]⟩ : UndoArray).historyLength i ≠ (create 1).historyLength i) →
          r = false) :=
  isEqualTo_iff_histories ([⟨1, [7], true⟩] : Heap Nat) ⟨1, [1], [some 0]⟩ (create 1)
    WF_one_value (WF_create _ _)

/-- C9, as amended: for an element type in which no value compares `!=` to
itself, the copy constructor, applied to a well-formed container `A`,
completes and yields a container `B` with `A.isEqualTo(B)`: `B` has the size
of `A` and, at every index, the history length and the history of `A`. -/
theorem copy_equals_source {T : Type} [BEq T] [ReflBEq T] (h : Heap T) (A : UndoArray)
    (hw : WF h A) :
    ∃ h1 B, copyCtor h A = .ok (h1, B) ∧ isEqualTo h1 A B = .ok true ∧
      B.m_size = A.m_size ∧
      ∀ i, i < A.m_size →
        B.historyLength i = A.historyLength i ∧ history h1 B i = history h A i ∧
        history h1 A i = history h A i := by
  obtain ⟨l, B, hcopy, hwB, hsz, hhist, _⟩ := copySlots_spec hw
  have hwA : WF (h ++ l) A := hw.heap_append l
  obtain ⟨r, hr, hiff⟩ := isEqualTo_rel hwA hwB
  have hrt : r = true := by
    rw [hiff]
    refine ⟨hsz.symm, fun i hi => ?_⟩
    obtain ⟨e1, e2⟩ := hhist i hi
    refine ⟨e1.symm, ?_⟩
    rw [e2, hw.history_append]
    exact forall2_beq_refl _
  rw [hrt] at hr
  exact ⟨h ++ l, B, hcopy, hr, hsz, fun i hi =>
    ⟨(hhist i hi).1, (hhist i hi).2, hw.history_append l i⟩⟩

/-- Witness of C9: copying a container that holds one value. -/
theorem copy_equals_source_witness :
    ∃ h1 B, copyCtor ([⟨1, [7], true⟩] : Heap Nat) ⟨1, [1], [some 0]⟩ = .ok (h1, B) ∧
      isEqualTo h1 ⟨1, [1], [some 0]⟩ B = .ok true ∧
      B.m_size = (⟨1, [1], [some 0]⟩ : UndoArray).m_size ∧
      ∀ i, i < (⟨1, [1], [some 0]⟩ : UndoArray).m_size →
        B.historyLength i = (⟨1, [1], [some 0]⟩ : UndoArray).historyLength i ∧
        history h1 B i = history ([⟨1, [7], true⟩] : Heap Nat) ⟨1, [1], [some 0]⟩ i ∧
        history h1 ⟨1, [1], [some 0]⟩ i =
          history ([⟨1, [7], true⟩] : Heap Nat) ⟨1, [1], [some 0]⟩ i :=
  copy_equals_source ([⟨1, [7], true⟩] : Heap Nat) ⟨1, [1], [some 0]⟩ WF_one_value

/-- C10, as amended: for an element type in which no value compares `!=` to
itself, and two well-formed containers `A` and `B` that are different objects
(no block is a slot of both), the assignment `B = A` completes, and
afterwards `A.isEqualTo(B)` holds: `B` has the size of `A` and, at every
index, the history length and the history of `A`, which are those `A` had
before. -/
theorem assign_equals_source {T : Type} [BEq T] [ReflBEq T] (h : Heap T)
    (A B : UndoArray) (hwA : WF h A) (hwB : WF h B) (hsep : Separate B A) :
    ∃ h1 B1, assign h B A = .ok (h1, B1) ∧ isEqualTo h1 A B1 = .ok true ∧
      B1.m_size = A.m_size ∧
      ∀ i, i < A.m_size →
        B1.historyLength i = A.historyLength i ∧ history h1 B1 i = history h A i ∧
        history h1 A i = history h A i := by
  obtain ⟨h1, B1, hrun, hwA1, hwB1, hsz, hA, hhist⟩ := assign_spec hwB hwA hsep
  obtain ⟨r, hr, hiff⟩ := isEqualTo_rel hwA1 hwB1
  have hrt : r = true := by
    rw [hiff]
    refine ⟨hsz.symm, fun i hi => ?_⟩
    obtain ⟨e1, e2⟩ := hhist i hi
    refine ⟨e1.symm, ?_⟩
    rw [e2, hA]
    exact forall2_beq_refl _
  rw [hrt] at hr
  exact ⟨h1, B1, hrun, hr, hsz, fun i hi => ⟨(hhist i hi).1, (hhist i hi).2, hA i⟩⟩

/-- Witness of C10: assigning a container that holds the value 7 to a
container that holds the value 8 in a block of its own. -/
theorem assign_equals_source_witness :
    ∃ h1 B1, assign ([⟨1, [7], true⟩, ⟨1, [8], true⟩] : Heap Nat) ⟨1, [1], [some 1]⟩
        ⟨1, [1], [some 0]⟩ = .ok (h1, B1) ∧
      isEqualTo h1 ⟨1, [1], [some 0]⟩ B1 = .ok true ∧
      B1.m_size = (⟨1, [1], [some 0]⟩ : UndoArray).m_size ∧
      ∀ i, i < (⟨1, [1], [some 0]⟩ : UndoArray).m_size →
        B1.historyLength i = (⟨1, [1], [some 0]⟩ : UndoArray).historyLength i ∧
        history h1 B1 i =
          history ([⟨1, [7], true⟩, ⟨1, [8], true⟩] : Heap Nat) ⟨1, [1], [some 0]⟩ i ∧
        history h1 ⟨1, [1], [some 0]⟩ i =
          history ([⟨1, [7], true⟩, ⟨1, [8], true⟩] : Heap Nat) ⟨1, [1], [some 0]⟩ i :=
  assign_equals_source ([⟨1, [7], true⟩, ⟨1, [8], true⟩] : Heap Nat) ⟨1, [1], [some 0]⟩
    ⟨1, [1], [some 1]⟩ WF_first_of_two WF_second_of_two separate_second_first

/-- C11, as the code behaves: the copy of a fresh container of size 1 has an
empty history at slot 0 but a non-null pointer there, so `undo(0)` on the
copy passes the assertion and runs into an undefined read (the second copy
loop, with `newSize` wrapped around to `UINT_MAX`, reads the empty temporary
block); on the fresh container itself `undo(0)` stops at the assertion. -/
theorem undo_on_copied_empty_slot :
    ∃ h1 c1, copyCtor ([] : Heap Nat) (create 1) = .ok (h1, c1) ∧
      c1.m_historySizes[0]? = some 0 ∧ history h1 c1 0 = [] ∧
      undo h1 c1 0 = .error .wildAccess ∧
      undo ([] : Heap Nat) (create 1) 0 = .error .assertion :=
  ⟨[⟨0, [], true⟩], ⟨1, [0], [some 0]⟩, rfl, rfl, rfl,
    undo_eq_zero _ _ 0 0 0 ⟨0, [], true⟩ rfl rfl rfl rfl rfl,
    undo_null _ _ 0 (create_values 1 0 (by decide))⟩

/-- C12, as the code behaves: `get(0)` on a fresh container of size 1 makes no
check; it dereferences the `NULL` pointer of the slot at offset
`0u - 1`.  On the copy of that container the slot has an empty block and
`get(0)` reads the cell at offset `UINT_MAX` of it.  Neither is a checked
failure. -/
theorem get_on_empty_slot :
    get ([] : Heap Nat) (create 1) 0 = .error .nullPointer ∧
    ∃ h1 c1, copyCtor ([] : Heap Nat) (create 1) = .ok (h1, c1) ∧
      c1.m_historySizes[0]? = some 0 ∧
      get h1 c1 0 = h1.load (some 0) 4294967295 ∧
      get h1 c1 0 = .error .wildAccess := by
  refine ⟨get_null _ _ 0 0 (create_values 1 0 (by decide)) (create_sizes 1 0 (by decide)),
    [⟨0, [], true⟩], ⟨1, [0], [some 0]⟩, rfl, rfl,
    get_zero ([⟨0, [], true⟩] : Heap Nat) ⟨1, [0], [some 0]⟩ 0 0 rfl rfl, ?_⟩
  rw [get_zero ([⟨0, [], true⟩] : Heap Nat) ⟨1, [0], [some 0]⟩ 0 0 rfl rfl]
  simp [Heap.load]

/-- C13, counterexample to the claim as stated: on a fresh container of size
1, each of `initialized(1)`, `get(1)`, `set(1, 7)` and `undo(1)` ends in the
undefined read of `m_values[1]` or `m_historySizes[1]` outside the array; none
of them is stopped by a check (the only checked failure of the class is the
assertion of `undo`). -/
theorem out_of_range_counterexample :
    (create 1).initialized 1 = .error .wildAccess ∧
    get ([] : Heap Nat) (create 1) 1 = .error .wildAccess ∧
    set ([] : Heap Nat) (create 1) 1 7 = .error .wildAccess ∧
    undo ([] : Heap Nat) (create 1) 1 = .error .wildAccess ∧
    undo ([] : Heap Nat) (create 1) 1 ≠ .error .assertion := by
  have hw : WF ([] : Heap Nat) (create 1) := WF_create _ _
  have hge : (create 1).m_size ≤ 1 := by rw [create_size]
  refine ⟨initialized_out_of_range hw hge, get_out_of_range hw hge,
    set_out_of_range hw hge 7, undo_out_of_range hw hge, ?_⟩
  rw [undo_out_of_range hw hge]
  intro e
  cases e

/-- C13, as amended: for every well-formed container and every index at or
beyond the size, none of `get`, `set`, `undo` and `initialized` checks the
index: each begins with the read `m_values[index]` or
`m_historySizes[index]` outside the top-level array, which C++ leaves
undefined, and does not complete. -/
theorem out_of_range_unchecked {T : Type} (h : Heap T) (c : UndoArray) (index : Nat) (v : T)
    (hw : WF h c) (hge : c.m_size ≤ index) :
    c.m_values[index]? = none ∧ c.m_historySizes[index]? = none ∧
    get h c index = .error .wildAccess ∧
    set h c index v = .error .wildAccess ∧
    undo h c index = .error .wildAccess ∧
    c.initialized index = .error .wildAccess :=
  ⟨getElem?_none_of_size _ _ _ hw.2.1 hge, getElem?_none_of_size _ _ _ hw.1 hge,
    get_out_of_range hw hge, set_out_of_range hw hge v, undo_out_of_range hw hge,
    initialized_out_of_range hw hge⟩

/-- Witness of C13, as amended: index 5 on a container of size 2 that holds
one value. -/
theorem out_of_range_unchecked_witness :
    (⟨2, [1, 0], [some 0, none]⟩ : UndoArray).m_values[5]? = none ∧
    (⟨2, [1, 0], [some 0, none]⟩ : UndoArray).m_historySizes[5]? = none ∧
    get ([⟨1, [7], true⟩] : Heap Nat) ⟨2, [1, 0], [some 0, none]⟩ 5 = .error .wildAccess ∧
    set ([⟨1, [7], true⟩] : Heap Nat) ⟨2, [1, 0], [some 0, none]⟩ 5 3 = .error .wildAccess ∧
    undo ([⟨1, [7], true⟩] : Heap Nat) ⟨2, [1, 0], [some 0, none]⟩ 5 = .error .wildAccess ∧
    (⟨2, [1, 0], [some 0, none]⟩ : UndoArray).initialized 5 = .error .wildAccess :=
  out_of_range_unchecked ([⟨1, [7], true⟩] : Heap Nat) ⟨2, [1, 0], [some 0, none]⟩ 5 3
    WF_two_slots (by decide)

/-- C15: for an element type whose `!=` is the negation of an equivalence,
`isEqualTo` is an equivalence on the well-formed containers of a heap: it
completes with true on `(a, a)`; if it returns true on `(a, b)` it returns
true on `(b, a)`; and if it returns true on `(a, b)` and on `(b, c)` it
returns true on `(a, c)`. -/
theorem isEqualTo_equivalence {T : Type} [BEq T] [EquivBEq T] (h : Heap T)
    (a b c : UndoArray) (hwa : WF h a) (hwb : WF h b) (hwc : WF h c) :
    isEqualTo h a a = .ok true ∧
    (isEqualTo h a b = .ok true → isEqualTo h b a = .ok true) ∧
    (isEqualTo h a b = .ok true → isEqualTo h b c = .ok true →
      isEqualTo h a c = .ok true) := by
  obtain ⟨raa, haa, iaa⟩ := isEqualTo_rel hwa hwa
  obtain ⟨rab, hab, iab⟩ := isEqualTo_rel hwa hwb
  obtain ⟨rba, hba, iba⟩ := isEqualTo_rel hwb hwa
  obtain ⟨rbc, hbc, ibc⟩ := isEqualTo_rel hwb hwc
  obtain ⟨rac, hac, iac⟩ := isEqualTo_rel hwa hwc
  refine ⟨?_, ?_, ?_⟩
  · have : raa = true := iaa.mpr ⟨rfl, fun i _ => ⟨rfl, forall2_beq_refl _⟩⟩
    rw [haa, this]
  · intro e
    rw [hab] at e
    have hr : rab = true := by
      cases e
      rfl
    obtain ⟨hsz, hall⟩ := iab.mp hr
    have : rba = true := iba.mpr ⟨hsz.symm, fun i hi =>
      ⟨((hall i (by omega)).1).symm, forall2_beq_symm (hall i (by omega)).2⟩⟩
    rw [hba, this]
  · intro e1 e2
    rw [hab] at e1
    rw [hbc] at e2
    have hr1 : rab = true := by
      cases e1
      rfl
    have hr2 : rbc = true := by
      cases e2
      rfl
    obtain ⟨hsz1, hall1⟩ := iab.mp hr1
    obtain ⟨hsz2, hall2⟩ := ibc.mp hr2
    have : rac = true := iac.mpr ⟨hsz1.trans hsz2, fun i hi =>
      ⟨((hall1 i hi).1).trans (hall2 i (by omega)).1,
        forall2_beq_trans (hall1 i hi).2 (hall2 i (by omega)).2⟩⟩
    rw [hac, this]

/-- Witness of C15: a container holding one value, a fresh container of size
1 and a fresh container of size 3. -/
theorem isEqualTo_equivalence_witness :
    isEqualTo ([⟨1, [7], true⟩] : Heap Nat) ⟨1, [1], [some 0]⟩ ⟨1, [1], [some 0]⟩ =
      .ok true ∧
    (isEqualTo ([⟨1, [7], true⟩] : Heap Nat) ⟨1, [1], [some 0]⟩ (create 1) = .ok true →
      isEqualTo ([⟨1, [7], true⟩] : Heap Nat) (create 1) ⟨1, [1], [some 0]⟩ = .ok true) ∧
    (isEqualTo ([⟨1, [7], true⟩] : Heap Nat) ⟨1, [1], [some 0]⟩ (create 1) = .ok true →
      isEqualTo ([⟨1, [7], true⟩] : Heap Nat) (create 1) (create 3) = .ok true →
      isEqualTo ([⟨1, [7], true⟩] : Heap Nat) ⟨1, [1], [some 0]⟩ (create 3) = .ok true) :=
  isEqualTo_equivalence ([⟨1, [7], true⟩] : Heap Nat) ⟨1, [1], [some 0]⟩ (create 1)
    (create 3) WF_one_value (WF_create _ _) (WF_create _ _)

/-- C18: on a well-formed container `print` completes; it writes the history
length of every slot in index order, then exactly `D` rows, where `D` is the
maximum history length over all slots (every history length is at most `D`,
and `D` is 0 or the history length of some slot); each row has exactly
`m_size` cells, and the cell at row `d`, slot `j` is the `d`-th oldest value
of slot `j` when `d` is below the history length of `j`, and the blank filler
otherwise. -/
theorem print_grid {T : Type} (h : Heap T) (c : UndoArray) (hw : WF h c) :
    ∃ P, print h c = .ok P ∧ P.size = c.m_size ∧ P.sizes.length = c.m_size ∧
      (∀ j, j < c.m_size → P.sizes[j]? = some (c.historyLength j)) ∧
      (∀ j, j < c.m_size → c.historyLength j ≤ P.rows.length) ∧
      (P.rows.length = 0 ∨ ∃ j, j < c.m_size ∧ c.historyLength j = P.rows.length) ∧
      ∀ d, d < P.rows.length →
        ∃ row, P.rows[d]? = some row ∧ row.length = c.m_size ∧
          ∀ j, j < c.m_size → row[j]? = some (gridCell h c d j) := by
  obtain ⟨m1, m2, m3⟩ := maxLoop_spec c.historyLength (List.range c.m_size) 0
  refine ⟨_, print_eq hw, rfl, by simp, ?_, ?_, ?_, ?_⟩
  · intro j hj
    simp [List.getElem?_range, hj]
  · intro j hj
    simpa using m2 j (List.mem_range.mpr hj)
  · rcases m3 with m3 | ⟨j, hj, hfj⟩
    · left
      simpa using m3
    · right
      exact ⟨j, List.mem_range.mp hj, by simpa using hfj⟩
  · intro d hd
    have hd2 : d < (List.range c.m_size).foldl
        (fun m j => if c.historyLength j > m then c.historyLength j else m) 0 := by
      simpa using hd
    refine ⟨(List.range c.m_size).map (gridCell h c d), ?_, by simp, ?_⟩
    · simp [List.getElem?_range, hd2]
    · intro j hj
      simp [List.getElem?_range, hj]

/-- Witness of C18: printing a container of size 2 whose slot 0 holds one
value. -/
theorem print_grid_witness :
    ∃ P, print ([⟨1, [7], true⟩] : Heap Nat) ⟨2, [1, 0], [some 0, none]⟩ = .ok P ∧
      P.size = (⟨2, [1, 0], [some 0, none]⟩ : UndoArray).m_size ∧
      P.sizes.length = (⟨2, [1, 0], [some 0, none]⟩ : UndoArray).m_size ∧
      (∀ j, j < (⟨2, [1, 0], [some 0, none]⟩ : UndoArray).m_size →
        P.sizes[j]? = some ((⟨2, [1, 0], [some 0, none]⟩ : UndoArray).historyLength j)) ∧
      (∀ j, j < (⟨2, [1, 0], [some 0, none]⟩ : UndoArray).m_size →
        (⟨2, [1, 0], [some 0, none]⟩ : UndoArray).historyLength j ≤ P.rows.length) ∧
      (P.rows.length = 0 ∨ ∃ j, j < (⟨2, [1, 0], [some 0, none]⟩ : UndoArray).m_size ∧
        (⟨2, [1, 0], [some 0, none]⟩ : UndoArray).historyLength j = P.rows.length) ∧
      ∀ d, d < P.rows.length →
        ∃ row, P.rows[d]? = some row ∧
          row.length = (⟨2, [1, 0], [some 0, none]⟩ : UndoArray).m_size ∧
          ∀ j, j < (⟨2, [1, 0], [some 0, none]⟩ : UndoArray).m_size →
            row[j]? = some (gridCell ([⟨1, [7], true⟩] : Heap Nat)
              ⟨2, [1, 0], [some 0, none]⟩ d j) :=
  print_grid ([⟨1, [7], true⟩] : Heap Nat) ⟨2, [1, 0], [some 0, none]⟩ WF_two_slots

/-- C1, as the code behaves: on every well-formed container, for every index
below the size, a non-empty sequence of calls `set(index, v1)`, ...,
`set(index, vk)` does not complete: the first call already stores its value
one past the block it has just allocated, which C++ leaves undefined, and so
the `get(index)` after the calls has no defined result. -/
theorem set_sequence_undefined {T : Type} (h : Heap T) (c : UndoArray) (index : Nat)
    (vs : List T) (hw : WF h c) (hi : index < c.m_size) (hne : vs ≠ []) :
    setAll index vs h c = .error .wildAccess ∧
    (setAll index vs h c >>= fun r => get r.1 r.2 index) = .error .wildAccess := by
  have hall := setAll_undefined hw hi vs hne
  refine ⟨hall, ?_⟩
  rw [hall, error_bind]

/-- Witness of C1: one `set` on slot 0 of a fresh container of size 1, then
`get`. -/
theorem set_sequence_undefined_witness :
    setAll 0 [7] ([] : Heap Nat) (create 1) = .error .wildAccess ∧
    (setAll 0 [7] ([] : Heap Nat) (create 1) >>= fun r => get r.1 r.2 0) =
      .error .wildAccess :=
  set_sequence_undefined ([] : Heap Nat) (create 1) 0 [7] (WF_create _ _) (by decide)
    (by decide)

/-- C2, as the code behaves: on a freshly created container, for an index below
the size, `k >= 1` values and any `m`, the `k` calls of `set` do not complete
(the first one ends in the undefined store one past its block), so the `m`
calls of `undo` after them are never reached with a defined container. -/
theorem sets_then_undos_undefined {T : Type} (h : Heap T) (size index : Nat) (vs : List T)
    (m : Nat) (hi : index < size) (hk : 1 ≤ vs.length) :
    setAll index vs h (create size) = .error .wildAccess ∧
    (setAll index vs h (create size) >>= fun r => undoN index m r.1 r.2) =
      .error .wildAccess := by
  have hne : vs ≠ [] := by
    intro hnil
    rw [hnil] at hk
    exact Nat.not_succ_le_zero 0 hk
  have hall := setAll_undefined (WF_create h size) (by rw [create_size]; exact hi) vs hne
  refine ⟨hall, ?_⟩
  rw [hall, error_bind]

/-- Witness of C2: two sets and one undo on slot 0 of a fresh container of
size 1. -/
theorem sets_then_undos_undefined_witness :
    setAll 0 [1, 2] ([] : Heap Nat) (create 1) = .error .wildAccess ∧
    (setAll 0 [1, 2] ([] : Heap Nat) (create 1) >>= fun r => undoN 0 1 r.1 r.2) =
      .error .wildAccess :=
  sets_then_undos_undefined ([] : Heap Nat) 1 0 [1, 2] 1 (by decide) (by decide)

/-- C3, as the code behaves: on a well-formed container whose slot `index`
records `n` values, `set(index, v)` reallocates the slot with a block of
requested length `n` that holds the `n` old values in order, records the
length `n + 1` (in `unsigned int` arithmetic), and then ends in the store of
`v` one past that block, which C++ leaves undefined: the call does not
complete with a history of `n + 1` values. -/
theorem set_push_undefined {T : Type} (h : Heap T) (c : UndoArray) (index n : Nat) (v : T)
    (hw : WF h c) (hi : index < c.m_size) (hn : c.m_historySizes[index]? = some n) :
    ∃ h1 c1 a b, setRealloc h c index = .ok (h1, c1) ∧
      c1.m_historySizes[index]? = some ((n + 1) % UINT_MOD) ∧
      c1.m_values[index]? = some (some a) ∧ h1[a]? = some b ∧
      b.cap = n ∧ b.cells = history h c index ∧ b.cells.length = n ∧
      set h c index v = .error .wildAccess := by
  obtain ⟨hn2, hp, hlt, hr, hf, _⟩ := hw.slot hi
  have hlen := historyLength_eq c index n hn
  have hi1 := lt_of_getElem?_eq _ _ _ hn
  have hi2 := lt_of_getElem?_eq _ _ _ hp
  have hb : (h.release (c.slotPtr index) ++
      [(⟨c.historyLength index, (h.cellsOf (c.slotPtr index)).take (c.historyLength index),
          false⟩ : Block T),
       ⟨c.historyLength index, (h.cellsOf (c.slotPtr index)).take (c.historyLength index),
          true⟩])[h.length + 1]? =
      some ⟨c.historyLength index,
        (h.cellsOf (c.slotPtr index)).take (c.historyLength index), true⟩ := by
    rw [Heap.getElem?_release_append_right]
    rfl
  refine ⟨_, _, h.length + 1, _, setRealloc_eq h c index _ _ hn2 hp hr hf, ?_, ?_, hb, hlen,
    rfl, ?_, set_wf hw hi v⟩
  · simp only [List.getElem?_set_self hi1, hlen]
  · simp only [List.getElem?_set_self hi2]
  · rw [← hlen]
    exact hr.length_take

/-- Witness of C3: `set(0, 9)` on a container of size 1 whose slot holds the
value 7. -/
theorem set_push_undefined_witness :
    ∃ h1 c1 a b, setRealloc ([⟨1, [7], true⟩] : Heap Nat) ⟨1, [1], [some 0]⟩ 0 = .ok (h1, c1) ∧
      c1.m_historySizes[0]? = some ((1 + 1) % UINT_MOD) ∧
      c1.m_values[0]? = some (some a) ∧ h1[a]? = some b ∧
      b.cap = 1 ∧ b.cells = history ([⟨1, [7], true⟩] : Heap Nat) ⟨1, [1], [some 0]⟩ 0 ∧
      b.cells.length = 1 ∧
      set ([⟨1, [7], true⟩] : Heap Nat) ⟨1, [1], [some 0]⟩ 0 9 = .error .wildAccess :=
  set_push_undefined ([⟨1, [7], true⟩] : Heap Nat) ⟨1, [1], [some 0]⟩ 0 1 9 WF_one_value
    (by decide) rfl

/-- C7, as the code behaves: on a well-formed container, for a slot `i` and
any other slot `j`, `set(i, v)` ends in the store one past the block of slot `i`,
which C++ leaves undefined, so nothing is guaranteed about slot `j` after it;
`undo(i)` on a slot with history completes and leaves the recorded length,
the history, `get(j)` and `initialized(j)` of slot `j` as they were. -/
theorem set_breaks_frame {T : Type} (h : Heap T) (c : UndoArray) (i j : Nat) (v : T)
    (hw : WF h c) (hi : i < c.m_size) (hij : i ≠ j) :
    set h c i v = .error .wildAccess ∧
    (1 ≤ c.historyLength i → ∃ h1 c1, undo h c i = .ok (h1, c1) ∧
      c1.m_historySizes[j]? = c.m_historySizes[j]? ∧ history h1 c1 j = history h c j ∧
      get h1 c1 j = get h c j ∧ c1.initialized j = c.initialized j) := by
  refine ⟨set_wf hw hi v, ?_⟩
  intro h1
  obtain ⟨e1, _, e3, e4, e5⟩ := hw.frame_replace i j (Ne.symm hij)
    [⟨c.historyLength i, history h c i, false⟩,
     ⟨c.historyLength i - 1, (history h c i).take (c.historyLength i - 1),
       decide (c.historyLength i ≠ 1)⟩]
    (if c.historyLength i = 1 then none else some (h.length + 1)) (c.historyLength i - 1)
  exact ⟨_, _, undo_wf hw hi h1, e1, e3, e4, e5⟩

/-- Witness of C7: `set` and `undo` on slot 0 of a container of size 2 in which
both slots hold one value, seen from slot 1. -/
theorem set_breaks_frame_witness :
    set ([⟨1, [7], true⟩, ⟨1, [8], true⟩] : Heap Nat) ⟨2, [1, 1], [some 0, some 1]⟩ 0 5 =
      .error .wildAccess ∧
    (1 ≤ (⟨2, [1, 1], [some 0, some 1]⟩ : UndoArray).historyLength 0 →
      ∃ h1 c1, undo ([⟨1, [7], true⟩, ⟨1, [8], true⟩] : Heap Nat)
          ⟨2, [1, 1], [some 0, some 1]⟩ 0 = .ok (h1, c1) ∧
        c1.m_historySizes[1]? =
          (⟨2, [1, 1], [some 0, some 1]⟩ : UndoArray).m_historySizes[1]? ∧
        history h1 c1 1 = history ([⟨1, [7], true⟩, ⟨1, [8], true⟩] : Heap Nat)
          ⟨2, [1, 1], [some 0, some 1]⟩ 1 ∧
        get h1 c1 1 = get ([⟨1, [7], true⟩, ⟨1, [8], true⟩] : Heap Nat)
          ⟨2, [1, 1], [some 0, some 1]⟩ 1 ∧
        c1.initialized 1 = (⟨2, [1, 1], [some 0, some 1]⟩ : UndoArray).initialized 1) :=
  set_breaks_frame ([⟨1, [7], true⟩, ⟨1, [8], true⟩] : Heap Nat)
    ⟨2, [1, 1], [some 0, some 1]⟩ 0 1 5 WF_two_values (by decide) (by decide)

/-- C17, as the code behaves: the copy constructor applied to a well-formed
container `A`, and the assignment of `A` to a different well-formed object,
complete and yield a `B` that has no block in common with `A`; but every
following `set` with an index below the size, on `B` as on `A`, ends in the
store one past the block it has just allocated, which C++ leaves undefined, so
nothing is guaranteed about the other object after it. -/
theorem copy_then_set_undefined {T : Type} (h : Heap T) (A B0 : UndoArray) (hwA : WF h A)
    (hwB0 : WF h B0) (hsep : Separate B0 A) :
    (∃ h1 B, copyCtor h A = .ok (h1, B) ∧ Independent h1 A B ∧ B.m_size = A.m_size ∧
      ∀ (i : Nat) (v : T), i < A.m_size →
        set h1 B i v = .error .wildAccess ∧ set h1 A i v = .error .wildAccess) ∧
    (∃ h1 B, assign h B0 A = .ok (h1, B) ∧ Independent h1 A B ∧ B.m_size = A.m_size ∧
      ∀ (i : Nat) (v : T), i < A.m_size →
        set h1 B i v = .error .wildAccess ∧ set h1 A i v = .error .wildAccess) := by
  constructor
  · obtain ⟨h1, B, hcopy, hind, hsz, _, _⟩ := copyCtor_independent hwA
    refine ⟨h1, B, hcopy, hind, hsz, fun i v hi => ?_⟩
    exact ⟨set_wf hind.2.1 (by omega) v, set_wf hind.1 hi v⟩
  · obtain ⟨h1, B, hrun, hind, hsz, _, _⟩ := assign_independent hwB0 hwA hsep
    refine ⟨h1, B, hrun, hind, hsz, fun i v hi => ?_⟩
    exact ⟨set_wf hind.2.1 (by omega) v, set_wf hind.1 hi v⟩

/-- Witness of C17: the copy of a container that holds the value 7, and the
assignment of it to a container that holds the value 8 in a block of its
own. -/
theorem copy_then_set_undefined_witness :
    (∃ h1 B, copyCtor ([⟨1, [7], true⟩, ⟨1, [8], true⟩] : Heap Nat) ⟨1, [1], [some 0]⟩ =
        .ok (h1, B) ∧
      Independent h1 ⟨1, [1], [some 0]⟩ B ∧
      B.m_size = (⟨1, [1], [some 0]⟩ : UndoArray).m_size ∧
      ∀ (i : Nat) (v : Nat), i < (⟨1, [1], [some 0]⟩ : UndoArray).m_size →
        set h1 B i v = .error .wildAccess ∧
        set h1 ⟨1, [1], [some 0]⟩ i v = .error .wildAccess) ∧
    (∃ h1 B, assign ([⟨1, [7], true⟩, ⟨1, [8], true⟩] : Heap Nat) ⟨1, [1], [some 1]⟩
        ⟨1, [1], [some 0]⟩ = .ok (h1, B) ∧
      Independent h1 ⟨1, [1], [some 0]⟩ B ∧
      B.m_size = (⟨1, [1], [some 0]⟩ : UndoArray).m_size ∧
      ∀ (i : Nat) (v : Nat), i < (⟨1, [1], [some 0]⟩ : UndoArray).m_size →
        set h1 B i v = .error .wildAccess ∧
        set h1 ⟨1, [1], [some 0]⟩ i v = .error .wildAccess) :=
  copy_then_set_undefined ([⟨1, [7], true⟩, ⟨1, [8], true⟩] : Heap Nat) ⟨1, [1], [some 0]⟩
    ⟨1, [1], [some 1]⟩ WF_first_of_two WF_second_of_two separate_second_first

/-- C20, as the code behaves: on a well-formed container, for an index below
the size, `set(index, v)` ends in the store one past the block it has just
allocated, which C++ leaves undefined, so the round trip `set(index, v)`,
`undo(index)` does not complete and yields no container to compare. -/
theorem set_then_undo_undefined {T : Type} (h : Heap T) (c : UndoArray) (index : Nat) (v : T)
    (hw : WF h c) (hi : index < c.m_size) :
    set h c index v = .error .wildAccess ∧
    (set h c index v >>= fun r => undo r.1 r.2 index) = .error .wildAccess := by
  have hset := set_wf hw hi v
  refine ⟨hset, ?_⟩
  rw [hset, error_bind]

/-- Witness of C20: `set(0, 5)` then `undo(0)` on a fresh container of size
1. -/
theorem set_then_undo_undefined_witness :
    set ([] : Heap Nat) (create 1) 0 5 = .error .wildAccess ∧
    (set ([] : Heap Nat) (create 1) 0 5 >>= fun r => undo r.1 r.2 0) = .error .wildAccess :=
  set_then_undo_undefined ([] : Heap Nat) (create 1) 0 5 (WF_create _ _) (by decide)

/-- C8, counterexample to the claim as stated: for an element type with a
value that compares `!=` to itself, a well-formed container whose slot holds
that value is not `isEqualTo` itself, although its size, history lengths and
histories are equal to its own. -/
theorem isEqualTo_iff_histories_counterexample :
    WF ([⟨1, [FloatLike.nan], true⟩] : Heap FloatLike) ⟨1, [1], [some 0]⟩ ∧
    isEqualTo ([⟨1, [FloatLike.nan], true⟩] : Heap FloatLike) ⟨1, [1], [some 0]⟩
      ⟨1, [1], [some 0]⟩ = .ok false ∧
    ¬ ∃ r, isEqualTo ([⟨1, [FloatLike.nan], true⟩] : Heap FloatLike) ⟨1, [1], [some 0]⟩
        ⟨1, [1], [some 0]⟩ = .ok r ∧
      (r = true ↔ ((⟨1, [1], [some 0]⟩ : UndoArray).m_size =
          (⟨1, [1], [some 0]⟩ : UndoArray).m_size ∧
        ∀ i, i < (⟨1, [1], [some 0]⟩ : UndoArray).m_size →
          (⟨1, [1], [some 0]⟩ : UndoArray).historyLength i =
            (⟨1, [1], [some 0]⟩ : UndoArray).historyLength i ∧
          history ([⟨1, [FloatLike.nan], true⟩] : Heap FloatLike) ⟨1, [1], [some 0]⟩ i =
            history ([⟨1, [FloatLike.nan], true⟩] : Heap FloatLike)
              ⟨1, [1], [some 0]⟩ i)) := by
  have heq : isEqualTo ([⟨1, [FloatLike.nan], true⟩] : Heap FloatLike) ⟨1, [1], [some 0]⟩
      ⟨1, [1], [some 0]⟩ = .ok false := rfl
  refine ⟨WF_nan_slot, heq, ?_⟩
  rintro ⟨r, hr, hiff⟩
  rw [heq] at hr
  cases hr
  have := hiff.mpr ⟨rfl, fun i _ => ⟨rfl, rfl⟩⟩
  cases this

/-- C9, counterexample to the claim as stated: the copy of a well-formed
container whose slot holds a value that compares `!=` to itself has the size,
history length and history of its source, and yet the source is not
`isEqualTo` it. -/
theorem copy_equals_source_counterexample :
    WF ([⟨1, [FloatLike.nan], true⟩] : Heap FloatLike) ⟨1, [1], [some 0]⟩ ∧
    ∃ h1 B, copyCtor ([⟨1, [FloatLike.nan], true⟩] : Heap FloatLike) ⟨1, [1], [some 0]⟩ =
        .ok (h1, B) ∧
      B.m_size = 1 ∧ B.historyLength 0 = 1 ∧
      history h1 B 0 = history ([⟨1, [FloatLike.nan], true⟩] : Heap FloatLike)
        ⟨1, [1], [some 0]⟩ 0 ∧
      isEqualTo h1 ⟨1, [1], [some 0]⟩ B = .ok false :=
  ⟨WF_nan_slot, _, _, rfl, rfl, rfl, rfl, rfl⟩

/-- C10, counterexample to the claim as stated: after the assignment of a
well-formed container whose slot holds a value that compares `!=` to itself
to a fresh container, the assigned copy has the size, history length and
history of its source, and yet the source is not `isEqualTo` it. -/
theorem assign_equals_source_counterexample :
    WF ([⟨1, [FloatLike.nan], true⟩] : Heap FloatLike) ⟨1, [1], [some 0]⟩ ∧
    ∃ h1 B, assign ([⟨1, [FloatLike.nan], true⟩] : Heap FloatLike) (create 2)
        ⟨1, [1], [some 0]⟩ = .ok (h1, B) ∧
      B.m_size = 1 ∧ B.historyLength 0 = 1 ∧
      history h1 B 0 = history ([⟨1, [FloatLike.nan], true⟩] : Heap FloatLike)
        ⟨1, [1], [some 0]⟩ 0 ∧
      isEqualTo h1 ⟨1, [1], [some 0]⟩ B = .ok false :=
  ⟨WF_nan_slot, _, _, rfl, rfl, rfl, rfl, rfl⟩

/-- C14, counterexample to the claim as stated: on a fresh container of size
1, `set(1, 7)` and `undo(1)` are not stopped by any check; each begins with a
read outside the top-level arrays, which C++ leaves undefined, so the code
defines no container after the call, identical or otherwise. -/
theorem failed_call_counterexample :
    setRun 1 7 (([] : Heap Nat), create 1) = .undefined .wildAccess ∧
    (undoRun 1 : Run Nat Unit) ([], create 1) = .undefined .wildAccess ∧
    (∀ s, setRun 1 7 (([] : Heap Nat), create 1) ≠ .asserted s) ∧
    (∀ s, (undoRun 1 : Run Nat Unit) ([], create 1) ≠ .asserted s) := by
  have e1 := setRun_out_of_range ([] : Heap Nat) (create 1) 1 7 rfl
  have e2 := undoRun_out_of_range ([] : Heap Nat) (create 1) 1 rfl
  rw [e1, e2]
  refine ⟨rfl, rfl, ?_, ?_⟩
  · intro s hs
    cases hs
  · intro s hs
    cases hs

/-- C14, as amended: on a well-formed container, the only call of `set` or
`undo` that a check of the code stops is `undo(index)` on a slot whose pointer
is `NULL`: it stops at the assertion before anything has been written, so the
container after the failed call is the one before it, with the same size and,
at every index, the same history length and the same history.  No call of
`set` is stopped by a check. -/
theorem failed_assert_keeps_container {T : Type} (h : Heap T) (c : UndoArray) (hw : WF h c)
    (i : Nat) (v : T) :
    (c.m_values[i]? = some none → (undoRun i : Run T Unit) (h, c) = .asserted (h, c)) ∧
    (∀ s, (undoRun i : Run T Unit) (h, c) = .asserted s →
      c.m_values[i]? = some none ∧ s.2.m_size = c.m_size ∧
      ∀ j, s.2.historyLength j = c.historyLength j ∧ history s.1 s.2 j = history h c j) ∧
    (∀ s, setRun i v (h, c) ≠ .asserted s) := by
  refine ⟨undoRun_null h c i, ?_, setRun_not_asserted hw i v⟩
  intro s hs
  obtain ⟨hp, rfl⟩ := undoRun_asserted hw i s hs
  exact ⟨hp, rfl, fun j => ⟨rfl, rfl⟩⟩

/-- Witness of C14: `undo(1)` and `set(1, 3)` on a container of size 2 whose
slot 1 is empty, with the pointer `NULL`. -/
theorem failed_assert_keeps_container_witness :
    ((⟨2, [1, 0], [some 0, none]⟩ : UndoArray).m_values[1]? = some none →
      (undoRun 1 : Run Nat Unit) ([⟨1, [7], true⟩], ⟨2, [1, 0], [some 0, none]⟩) =
        .asserted ([⟨1, [7], true⟩], ⟨2, [1, 0], [some 0, none]⟩)) ∧
    (∀ s, (undoRun 1 : Run Nat Unit) ([⟨1, [7], true⟩], ⟨2, [1, 0], [some 0, none]⟩) =
        .asserted s →
      (⟨2, [1, 0], [some 0, none]⟩ : UndoArray).m_values[1]? = some none ∧
      s.2.m_size = (⟨2, [1, 0], [some 0, none]⟩ : UndoArray).m_size ∧
      ∀ j, s.2.historyLength j =
          (⟨2, [1, 0], [some 0, none]⟩ : UndoArray).historyLength j ∧
        history s.1 s.2 j =
          history ([⟨1, [7], true⟩] : Heap Nat) ⟨2, [1, 0], [some 0, none]⟩ j) ∧
    (∀ s, setRun 1 3 (([⟨1, [7], true⟩] : Heap Nat), ⟨2, [1, 0], [some 0, none]⟩) ≠
      .asserted s) :=
  failed_assert_keeps_container ([⟨1, [7], true⟩] : Heap Nat) ⟨2, [1, 0], [some 0, none]⟩
    WF_two_slots 1 3
